import Mathlib

/-!
Verification development for the animestars kodik fix extension.

The repository code under scrutiny lives in
`src/extension/src/utils/url-parser.ts` (cipher resolver),
`src/extension/src/utils/cache.ts` (layered cache),
`src/extension/src/api/kodik-client.ts` (legacy API client) and the
optimized API client (request pool, retry logic, parameter hashing).

Strings are modelled as lists of UTF-16 code units (`List Nat`), the
representation JavaScript string operations act on.  Platform builtins
(`btoa`, `atob`, `parseInt`, `JSON.stringify` for the flat objects that
occur here) are modelled by their standard specifications; `atob` follows
the WHATWG forgiving-base64 decode used by browsers.  Case conversion is
modelled on the ASCII range, the character domain of the data this
program processes.  Exceptions become `Option`/`Except` values, and the
stateful cache, pool and retry code becomes explicit state passing.
-/

set_option autoImplicit false

namespace KodikFix

/-- Code units of an ASCII string literal. -/
def ascii (s : String) : List Nat := s.data.map Char.toNat

/-- Does the second list start with the first one? -/
def leads : List Nat → List Nat → Bool
  | [], _ => true
  | _ :: _, [] => false
  | a :: as, b :: bs => a == b && leads as bs

/-- `String.prototype.includes`: does `p` occur contiguously inside the list? -/
def occursIn (p : List Nat) : List Nat → Bool
  | [] => p.isEmpty
  | b :: bs => leads p (b :: bs) || occursIn p bs

/-- `Array.prototype.map` composed with a fallible element function: the whole
result fails when any element fails (used for base64 alphabet lookup). -/
def mapOpt (f : Nat → Option Nat) : List Nat → Option (List Nat)
  | [] => some []
  | x :: xs =>
    match f x, mapOpt f xs with
    | some y, some ys => some (y :: ys)
    | _, _ => none

/-- ASCII `toLowerCase` on one code unit. -/
def toLowerCode (c : Nat) : Nat := if 65 ≤ c ∧ c ≤ 90 then c + 32 else c

/-- ASCII `toUpperCase` on one code unit. -/
def toUpperCode (c : Nat) : Nat := if 97 ≤ c ∧ c ≤ 122 then c - 32 else c

/-- `convertChar` from `url-parser.ts` (lines 247-258): rotate a letter
forward by `num` inside the 26-letter alphabet, preserving case;
non-letters pass through unchanged. -/
def convertChar (c num : Nat) : Nat :=
  let isLower := c == toLowerCode c
  let up := toUpperCode c
  if 65 ≤ up ∧ up ≤ 90 then
    let newChar := 65 + (up - 65 + num) % 26
    if isLower then toLowerCode newChar else newChar
  else c

/-- The literal `mp4:hls:manifest` marker validating a successful decode. -/
def manifestMarker : List Nat := ascii "mp4:hls:manifest"

/-- Base64 alphabet: sextet value to code unit. -/
def sextetToChar (n : Nat) : Nat :=
  if n < 26 then 65 + n
  else if n < 52 then 97 + (n - 26)
  else if n < 62 then 48 + (n - 52)
  else if n = 62 then 43
  else 47

/-- Base64 alphabet: code unit to sextet value, `none` outside the alphabet. -/
def charToSextet (c : Nat) : Option Nat :=
  if 65 ≤ c ∧ c ≤ 90 then some (c - 65)
  else if 97 ≤ c ∧ c ≤ 122 then some (26 + (c - 97))
  else if 48 ≤ c ∧ c ≤ 57 then some (52 + (c - 48))
  else if c = 43 then some 62
  else if c = 47 then some 63
  else none

/-- Reassemble bytes from a list of sextets; a trailing group of two or three
sextets contributes one or two bytes, leftover bits are discarded
(forgiving-base64 decode step). -/
def decodeSextets : List Nat → List Nat
  | s1 :: s2 :: s3 :: s4 :: rest =>
      (s1 * 4 + s2 / 16) :: (s2 % 16 * 16 + s3 / 4) :: (s3 % 4 * 64 + s4) ::
        decodeSextets rest
  | [s1, s2] => [s1 * 4 + s2 / 16]
  | [s1, s2, s3] => [s1 * 4 + s2 / 16, s2 % 16 * 16 + s3 / 4]
  | _ => []

/-- The sextet values of the base64 body of a byte string (specification
companion of `btoaBody`). -/
def toSex : List Nat → List Nat
  | [] => []
  | [a] => [a / 4, a % 4 * 16]
  | [a, b] => [a / 4, a % 4 * 16 + b / 16, b % 16 * 4]
  | a :: b :: c :: rest =>
      a / 4 :: (a % 4 * 16 + b / 16) :: (b % 16 * 4 + c / 64) :: c % 64 :: toSex rest

/-- ASCII whitespace removed by forgiving-base64 decode. -/
def isB64Ws (c : Nat) : Bool := c == 9 || c == 10 || c == 12 || c == 13 || c == 32

/-- Remove one or two trailing `=` (code 61) padding characters. -/
def stripTrailingEq (t : List Nat) : List Nat :=
  match t.reverse with
  | 61 :: 61 :: r => r.reverse
  | 61 :: r => r.reverse
  | _ => t

/-- Browser `atob`: WHATWG forgiving-base64 decode.  Strip ASCII whitespace;
when the length is a multiple of four, drop up to two trailing `=`;
fail when the remaining length is `1 mod 4` or a character is outside the
base64 alphabet; otherwise decode sextets to bytes. -/
def atob (s0 : List Nat) : Option (List Nat) :=
  let s1 := s0.filter (fun c => !isB64Ws c)
  let t := if s1.length % 4 == 0 then stripTrailingEq s1 else s1
  if t.length % 4 == 1 then none
  else
    match mapOpt charToSextet t with
    | none => none
    | some xs => some (decodeSextets xs)

/-- Base64 body (without padding) of a byte string, three bytes per four
characters. -/
def btoaBody : List Nat → List Nat
  | [] => []
  | [a] => [sextetToChar (a / 4), sextetToChar (a % 4 * 16)]
  | [a, b] =>
      [sextetToChar (a / 4), sextetToChar (a % 4 * 16 + b / 16),
       sextetToChar (b % 16 * 4)]
  | a :: b :: c :: rest =>
      sextetToChar (a / 4) :: sextetToChar (a % 4 * 16 + b / 16) ::
      sextetToChar (b % 16 * 4 + c / 64) :: sextetToChar (c % 64) :: btoaBody rest

/-- Browser `btoa`: standard base64 encoding with `=` padding, defined for
byte values below 256. -/
def btoa (s : List Nat) : List Nat :=
  btoaBody s ++ List.replicate ((3 - s.length % 3) % 3) 61

/-- One iteration of the `decryptKodikUrl` loop body (`url-parser.ts` lines
267-288): rotate every character by `rot`, restore base64 padding, attempt
`atob`, and accept only a decode containing the manifest marker.  A thrown
`atob` error is caught and surfaces as `none`. -/
def tryRot (rot : Nat) (s : List Nat) : Option (List Nat) :=
  let rotated := s.map (fun c => convertChar c rot)
  let padding := (4 - rotated.length % 4) % 4
  let padded := rotated ++ List.replicate padding 61
  match atob padded with
  | none => none
  | some decoded => if occursIn manifestMarker decoded then some decoded else none

/-- The `for (let rot = 0; rot < 26; rot++)` loop of `decryptKodikUrl`,
returning at the first accepting candidate. -/
def decryptGo (s : List Nat) (rot : Nat) : Option (List Nat) :=
  if rot < 26 then
    match tryRot rot s with
    | some d => some d
    | none => decryptGo s (rot + 1)
  else none
termination_by 26 - rot

/-- `decryptKodikUrl` from `url-parser.ts` (lines 264-293). -/
def decryptKodikUrl (s : List Nat) : Option (List Nat) :=
  decryptGo s 0

/-- The encoding scheme the cipher resolver inverts: base64-encode, strip the
`=` padding, then rotate every character forward by `r`. -/
def encodeKodik (r : Nat) (s : List Nat) : List Nat :=
  ((btoa s).filter (fun c => c != 61)).map (fun c => convertChar c r)

/-- A string whose rotated encoding is accepted at an earlier loop candidate
than the inverse rotation: its second half decodes, under one extra rotation,
to another marker-carrying string. -/
def rotBreakTail : List Nat :=
  (atob ((btoaBody (ascii "mp4:hls:manifestZZ")).map (fun c => convertChar c 25))).getD []

/-- Concrete marker-containing input breaking the naive round-trip law. -/
def rotBreakSrc : List Nat := ascii "mp4:hls:manifest00" ++ rotBreakTail

/-- What the resolver actually returns on the rotated encoding of
`rotBreakSrc`: the rotation-0 candidate already carries the marker. -/
def rotBreakOut : List Nat := (tryRot 0 (encodeKodik 1 rotBreakSrc)).getD []

/-! ### Association-list maps

JavaScript `Map` objects and plain objects keep insertion order; `set` on an
existing key keeps its original position.  Keys are code-unit lists. -/

/-- `Map.prototype.get` / property lookup. -/
def mapFind {α : Type} (k : List Nat) : List (List Nat × α) → Option α
  | [] => none
  | kv :: rest => if kv.1 = k then some kv.2 else mapFind k rest

/-- `Map.prototype.set`: update in place, else append. -/
def mapSet {α : Type} (k : List Nat) (v : α) : List (List Nat × α) → List (List Nat × α)
  | [] => [(k, v)]
  | kv :: rest => if kv.1 = k then (k, v) :: rest else kv :: mapSet k v rest

/-- `Map.prototype.delete`. -/
def mapDelete {α : Type} (k : List Nat) : List (List Nat × α) → List (List Nat × α)
  | [] => []
  | kv :: rest => if kv.1 = k then mapDelete k rest else kv :: mapDelete k rest

/-! ### Video link resolution (`getVideoLinks`, `url-parser.ts` lines 332-400,
and the URL cleanup tail of `KodikAPI.getVideoUrl`, `kodik-client.ts` lines
391-398).  The pure core starts from the parsed JSON link table of the POST
response. -/

/-- A JavaScript number as produced by `parseInt`/`Math.max` here:
`NaN`, `-Infinity` (the result of `Math.max()` on nothing) or an integer. -/
inductive JsNum where
  | nan : JsNum
  | negInf : JsNum
  | val : Int → JsNum
deriving DecidableEq

/-- Digit-run parser underlying `parseInt` (radix 10). -/
def parseDigits (l : List Nat) : Option Nat :=
  let digs := l.takeWhile (fun c => 48 ≤ c && c ≤ 57)
  if digs.isEmpty then none
  else some (digs.foldl (fun acc c => acc * 10 + (c - 48)) 0)

/-- `parseInt(s)`: trim leading whitespace, optional sign, leading digit run;
`none` models `NaN`. -/
def jsParseInt (s : List Nat) : Option Int :=
  let t := s.dropWhile (fun c => isB64Ws c)
  match t with
  | 43 :: rest => (parseDigits rest).map (fun n => (n : Int))
  | 45 :: rest => (parseDigits rest).map (fun n => -(n : Int))
  | _ => (parseDigits t).map (fun n => (n : Int))

/-- Wrap a `parseInt` result as a JavaScript number. -/
def jsNumOfParse : Option Int → JsNum
  | none => .nan
  | some n => .val n

/-- Binary `Math.max`: `NaN` is absorbing, `-Infinity` neutral. -/
def jsMax2 : JsNum → JsNum → JsNum
  | .nan, _ => .nan
  | _, .nan => .nan
  | .negInf, b => b
  | a, .negInf => a
  | .val a, .val b => .val (max a b)

/-- `Math.max(...list)`. -/
def mathMax (l : List JsNum) : JsNum := l.foldl jsMax2 .negInf

/-- The JSON `data.links` table: quality label to array of `{src}` entries
(each entry reduced to its `src` string). -/
abbrev LinksTable : Type := List (List Nat × List (List Nat))

/-- Property access `data.links[q]`. -/
def tableGet (t : LinksTable) (k : List Nat) : Option (List (List Nat)) :=
  mapFind k t

/-- Pure core of `getVideoLinks` (lines 371-395): read
`data.links['360'][0].src`, decrypt it unless it already carries the manifest
marker, and compute `Math.max` over the `parseInt`-ed quality keys.  A missing
`'360'` key or empty array throws (`TypeError`), and a failed decrypt throws
`Failed to decrypt video URL`; thrown errors are modelled as `Except.error`
messages. -/
def getVideoLinks (links : LinksTable) : Except (List Nat) (List Nat × JsNum) :=
  match tableGet links (ascii "360") with
  | none => .error (ascii "TypeError")
  | some [] => .error (ascii "TypeError")
  | some (dataUrl :: _) =>
    let finalUrl? := if occursIn manifestMarker dataUrl then some dataUrl
                     else decryptKodikUrl dataUrl
    match finalUrl? with
    | none => .error (ascii "Failed to decrypt video URL")
    | some finalUrl =>
      let qualities := links.map (fun kv => jsNumOfParse (jsParseInt kv.1))
      .ok (finalUrl, mathMax qualities)

/-- `String.prototype.replace` with a plain-string pattern: replace the first
occurrence with the empty string. -/
def replaceFirst (pat : List Nat) : List Nat → List Nat
  | [] => []
  | c :: rest => if leads pat (c :: rest) then (c :: rest).drop pat.length
                 else c :: replaceFirst pat rest

/-- `url.substring(0, url.lastIndexOf('/') + 1)`. -/
def upToLastSlash (l : List Nat) : List Nat :=
  match l.reverse.findIdx? (fun c => c == 47) with
  | none => []
  | some i => l.take (l.length - i)

/-- URL cleanup of `KodikAPI.getVideoUrl` (lines 392-393): strip the first
`https:` and keep the directory part up to the last slash. -/
def cleanVideoUrl (u : List Nat) : List Nat :=
  upToLastSlash (replaceFirst (ascii "https:") u)

/-- `KodikAPI.getVideoUrl`, pure tail: the `{url, maxQuality}` it returns as a
function of the link table obtained by `getVideoLinks`. -/
def getVideoUrlResult (links : LinksTable) : Except (List Nat) (List Nat × JsNum) :=
  (getVideoLinks links).map (fun r => (cleanVideoUrl r.1, r.2))

/-- Concrete link-table scenario: both sources carry the manifest marker. -/
def cexSrcA : List Nat := ascii "https://hosta/mp4:hls:manifest/360/file"

/-- Second concrete source, stored under the maximal quality key. -/
def cexSrcB : List Nat := ascii "https://hostb/mp4:hls:manifest/720/file"

/-- The link table of end-to-end scenario B. -/
def cexLinks : LinksTable := [(ascii "360", [cexSrcA]), (ascii "720", [cexSrcB])]

/-! ### Layered cache (`cache.ts`, class `OptimizedCache`)

Values have an abstract type `V`; the `JSON.stringify`/`JSON.parse` codec used
for compression and durable storage is passed in as `stringify`/`parse`
(`parse` is partial: `JSON.parse` throws on corrupted text).  The `data` slot
of an entry holds either the original value or, when the compression branch
was taken, its serialized form; this mirrors the source's dynamically typed
`data` field together with its `compressed` flag.  Durable tiers hold cells
whose failure modes mirror the source: an IndexedDB read request can error
(rejecting the promise), and a web-storage cell can hold corrupted text whose
`JSON.parse` throws (modelled as a `none` cell).  Storage keys are modelled
without the constant `cache_` prefix the source prepends. -/

/-- The `data` slot of a cache entry: a plain value, or the serialized string
stored when compression applied (`compressed: true` in the source). -/
inductive CData (V : Type) where
  | plain : V → CData V
  | compr : List Nat → CData V
deriving DecidableEq

/-- `CacheEntry` from `cache.ts` (lines 11-21). -/
structure CEntry (V : Type) where
  key : List Nat
  data : CData V
  timestamp : Nat
  expires : Nat
  priority : Nat
  size : Nat
  accessCount : Nat
  lastAccess : Nat
deriving DecidableEq

/-- Priority option values. -/
inductive CPriority where
  | low : CPriority
  | normal : CPriority
  | high : CPriority
deriving DecidableEq

/-- `getPriorityValue` (lines 645-652). -/
def getPriorityValue : CPriority → Nat
  | .low => 1
  | .normal => 2
  | .high => 3

/-- `CacheOptions` (lines 4-9); absent fields take the source defaults. -/
structure CacheOptions where
  ttl : Option Nat := none
  priority : Option CPriority := none
  compress : Option Bool := none
  persistent : Option Bool := none

/-- The `config` block (lines 51-58); `maxMemorySize * 0.8` is exact for the
default 50MB value and is modelled as `* 4 / 5`. -/
structure CacheConfig where
  maxMemorySize : Nat := 50 * 1024 * 1024
  maxMemoryEntries : Nat := 1000
  maxIndexedDBSize : Nat := 200 * 1024 * 1024
  compressionThreshold : Nat := 10 * 1024
  cleanupInterval : Nat := 5 * 60 * 1000
  defaultTTL : Nat := 60 * 60 * 1000

/-- The default configuration of the source. -/
def defaultConfig : CacheConfig := {}

/-- Hit counters (`stats`, lines 41-48). -/
structure CacheStats where
  totalRequests : Nat := 0
  totalHits : Nat := 0
  memoryHits : Nat := 0
  indexedDBHits : Nat := 0
  sessionHits : Nat := 0
  localHits : Nat := 0
deriving DecidableEq

/-- Whole-cache state: the memory map, the nullable IndexedDB store (cells can
error on read), the two web storages (cells can be corrupted), and stats. -/
structure CacheState (V : Type) where
  memory : List (List Nat × CEntry V)
  idb : Option (List (List Nat × Except Unit (CEntry V)))
  session : List (List Nat × Option (CEntry V))
  localS : List (List Nat × Option (CEntry V))
  stats : CacheStats

/-- `entry.compressed ? this.decompress(entry.data) : entry.data`; a
`JSON.parse` failure inside `decompress` throws, hence `none`. -/
def decompressData {V : Type} (parse : List Nat → Option V) : CData V → Option V
  | .plain v => some v
  | .compr s => parse s

/-- The eviction comparator (lines 295-302): priority ascending, then
`lastAccess` ascending. -/
def entryLE {V : Type} (a b : List Nat × CEntry V) : Bool :=
  Nat.blt a.2.priority b.2.priority ||
    (a.2.priority == b.2.priority && Nat.ble a.2.lastAccess b.2.lastAccess)

/-- Stable insertion of one element: after all earlier elements it does not
strictly precede. -/
def insertStable {α : Type} (le : α → α → Bool) (x : α) : List α → List α
  | [] => [x]
  | y :: ys => if le y x then y :: insertStable le x ys else x :: y :: ys

/-- Stable sort, the behavior of `Array.prototype.sort` with this comparator. -/
def sortStable {α : Type} (le : α → α → Bool) (l : List α) : List α :=
  l.foldl (fun acc x => insertStable le x acc) []

/-- `evictMemoryEntries` (lines 292-310): delete the first `count` entries of
the sorted array from the map. -/
def evictMemoryEntries {V : Type} (count : Nat)
    (mem : List (List Nat × CEntry V)) : List (List Nat × CEntry V) :=
  ((sortStable entryLE mem).take count).foldl (fun m kv => mapDelete kv.1 m) mem

/-- The loop of `evictMemoryEntriesSize` (lines 324-333): walk the sorted
entries, deleting until the freed size reaches the requested amount. -/
def evictSizeGo {V : Type} (sizeToFree : Nat) :
    List (List Nat × CEntry V) → Nat → List (List Nat × CEntry V) →
      List (List Nat × CEntry V)
  | [], _, m => m
  | kv :: rest, freed, m =>
    if sizeToFree ≤ freed then m
    else evictSizeGo sizeToFree rest (freed + kv.2.size) (mapDelete kv.1 m)

/-- `evictMemoryEntriesSize` (lines 315-336). -/
def evictMemoryEntriesSize {V : Type} (sizeToFree : Nat)
    (mem : List (List Nat × CEntry V)) : List (List Nat × CEntry V) :=
  evictSizeGo sizeToFree (sortStable entryLE mem) 0 mem

/-- Total size of the memory map (`reduce` over `entry.size`). -/
def sumSizes {V : Type} (mem : List (List Nat × CEntry V)) : Nat :=
  (mem.map (fun kv => kv.2.size)).sum

/-- `enforceMemoryLimits` (lines 273-287): entry-count eviction, then
size-based eviction down to 80% of the byte cap. -/
def enforceMemoryLimits {V : Type} (cfg : CacheConfig)
    (mem : List (List Nat × CEntry V)) : List (List Nat × CEntry V) :=
  let mem1 := if cfg.maxMemoryEntries < mem.length then
      evictMemoryEntries (mem.length - cfg.maxMemoryEntries) mem
    else mem
  let totalSize := sumSizes mem1
  if cfg.maxMemorySize < totalSize then
    evictMemoryEntriesSize (totalSize - cfg.maxMemorySize * 4 / 5) mem1
  else mem1

/-- `setMemoryCache` (lines 263-268). -/
def setMemoryCache {V : Type} (cfg : CacheConfig) (key : List Nat) (e : CEntry V)
    (mem : List (List Nat × CEntry V)) : List (List Nat × CEntry V) :=
  enforceMemoryLimits cfg (mapSet key e mem)

/-- `getFromIndexedDB` (lines 365-386): null database or missing key give
`null`; an erroring read request rejects the awaited promise. -/
def getFromIndexedDB {V : Type} (key : List Nat) (st : CacheState V) :
    Except Unit (Option (CEntry V)) :=
  match st.idb with
  | none => .ok none
  | some store =>
    match mapFind key store with
    | none => .ok none
    | some (.ok e) => .ok (some e)
    | some (.error _) => .error ()

/-- `getFromSessionStorage` (lines 411-418): a missing key or a cell whose
`JSON.parse` throws gives `null`. -/
def getFromSessionStorage {V : Type} (key : List Nat) (st : CacheState V) :
    Option (CEntry V) :=
  match mapFind key st.session with
  | none => none
  | some none => none
  | some (some e) => some e

/-- `getFromLocalStorage` (lines 440-447). -/
def getFromLocalStorage {V : Type} (key : List Nat) (st : CacheState V) :
    Option (CEntry V) :=
  match mapFind key st.localS with
  | none => none
  | some none => none
  | some (some e) => some e

/-- Steps 4 of `get` (lines 187-202): probe localStorage. -/
def cacheGetLocal {V : Type} (parse : List Nat → Option V) (cfg : CacheConfig)
    (now : Nat) (key : List Nat) (st : CacheState V) : Option V × CacheState V :=
  match getFromLocalStorage key st with
  | some e =>
    if now < e.expires then
      let st2 := { st with
                   memory := setMemoryCache cfg key e st.memory
                   stats := { st.stats with
                              totalHits := st.stats.totalHits + 1
                              localHits := st.stats.localHits + 1 } }
      (decompressData parse e.data, st2)
    else (none, st)
  | none => (none, st)

/-- Step 3 of `get` (lines 170-185): probe sessionStorage, else fall through. -/
def cacheGetSession {V : Type} (parse : List Nat → Option V) (cfg : CacheConfig)
    (now : Nat) (key : List Nat) (st : CacheState V) : Option V × CacheState V :=
  match getFromSessionStorage key st with
  | some e =>
    if now < e.expires then
      let st2 := { st with
                   memory := setMemoryCache cfg key e st.memory
                   stats := { st.stats with
                              totalHits := st.stats.totalHits + 1
                              sessionHits := st.stats.sessionHits + 1 } }
      (decompressData parse e.data, st2)
    else cacheGetLocal parse cfg now key st
  | none => cacheGetLocal parse cfg now key st

/-- Step 2 of `get` (lines 153-168): probe IndexedDB; a rejected read is
caught by the surrounding `try` and yields `null` immediately.  An entry found
expired is left in place and probing continues. -/
def cacheGetDurable {V : Type} (parse : List Nat → Option V) (cfg : CacheConfig)
    (now : Nat) (key : List Nat) (st : CacheState V) : Option V × CacheState V :=
  match getFromIndexedDB key st with
  | .error _ => (none, st)
  | .ok none => cacheGetSession parse cfg now key st
  | .ok (some e) =>
    if now < e.expires then
      let st2 := { st with
                   memory := setMemoryCache cfg key e st.memory
                   stats := { st.stats with
                              totalHits := st.stats.totalHits + 1
                              indexedDBHits := st.stats.indexedDBHits + 1 } }
      (decompressData parse e.data, st2)
    else cacheGetSession parse cfg now key st

/-- `OptimizedCache.get` (lines 127-209): count the request, probe the memory
tier (mutating and returning a fresh hit, deleting an expired entry), then the
durable tiers in latency order. -/
def cacheGet {V : Type} (parse : List Nat → Option V) (cfg : CacheConfig)
    (now : Nat) (key : List Nat) (st0 : CacheState V) : Option V × CacheState V :=
  let st := { st0 with stats := { st0.stats with
                                  totalRequests := st0.stats.totalRequests + 1 } }
  match mapFind key st.memory with
  | some e =>
    if now < e.expires then
      let e2 := { e with accessCount := e.accessCount + 1, lastAccess := now }
      let st2 := { st with
                   memory := mapSet key e2 st.memory
                   stats := { st.stats with
                              totalHits := st.stats.totalHits + 1
                              memoryHits := st.stats.memoryHits + 1 } }
      (decompressData parse e2.data, st2)
    else
      cacheGetDurable parse cfg now key { st with memory := mapDelete key st.memory }
  | none => cacheGetDurable parse cfg now key st

/-- `cleanupSessionStorage`/`cleanupLocalStorage` (lines 575-626), non-clearAll
mode: drop expired and corrupted cells. -/
def cleanupStorage {V : Type} (now : Nat)
    (store : List (List Nat × Option (CEntry V))) :
    List (List Nat × Option (CEntry V)) :=
  store.filter (fun kv => match kv.2 with
    | none => false
    | some e => decide (now < e.expires))

/-- `setSessionStorage`/`setLocalStorage` (lines 423-464): on a quota failure
(`fails` true for this call) clean the storage and retry once; a persistent
failure leaves only the cleanup behind. -/
def setWebStorage {V : Type} (now : Nat) (key : List Nat) (e : CEntry V)
    (fails : Bool) (store : List (List Nat × Option (CEntry V))) :
    List (List Nat × Option (CEntry V)) :=
  if fails then cleanupStorage now store
  else mapSet key (some e) store

/-- `setPersistentCache` (lines 341-360): route the entry to one durable tier
by size band.  An IndexedDB `put` failure rejects the promise awaited inside
`set`, whose `catch` swallows it, so the state is simply left unchanged. -/
def setPersistentCache {V : Type} (now : Nat) (key : List Nat) (e : CEntry V)
    (wfIdb wfSess wfLoc : Bool) (st : CacheState V) : CacheState V :=
  if 100 * 1024 < e.size ∧ st.idb.isSome then
    match st.idb with
    | none => st
    | some store =>
      if wfIdb then st
      else { st with idb := some (mapSet key (.ok e) store) }
  else if 10 * 1024 < e.size then
    { st with session := setWebStorage now key e wfSess st.session }
  else
    { st with localS := setWebStorage now key e wfLoc st.localS }

/-- The entry construction of `OptimizedCache.set` (lines 219-243): defaulted
TTL and priority, an entry size equal to the length of the serialized value
(`new Blob([JSON.stringify(data)]).size`), and compression of payloads above
the threshold unless `compress: false`. -/
def mkCacheEntry {V : Type} (stringify : V → List Nat) (cfg : CacheConfig)
    (now : Nat) (key : List Nat) (v : V) (opts : CacheOptions) : CEntry V :=
  let ttl := opts.ttl.getD cfg.defaultTTL
  let expires := now + ttl
  let priority := getPriorityValue (opts.priority.getD .normal)
  let serialized := stringify v
  let size := serialized.length
  let shouldCompress := opts.compress ≠ some false ∧ cfg.compressionThreshold < size
  let finalData : CData V := if shouldCompress then .compr serialized else .plain v
  { key := key, data := finalData, timestamp := now, expires := expires,
    priority := priority, size := size, accessCount := 1, lastAccess := now }

/-- `OptimizedCache.set` (lines 214-258): build the entry, always write the
memory tier, then one durable tier unless `persistent: false`.
`wfIdb`/`wfSess`/`wfLoc` inject write failures of the respective backends. -/
def cacheSet {V : Type} (stringify : V → List Nat) (cfg : CacheConfig)
    (now : Nat) (key : List Nat) (v : V) (opts : CacheOptions)
    (wfIdb wfSess wfLoc : Bool) (st : CacheState V) : CacheState V :=
  let e := mkCacheEntry stringify cfg now key v opts
  let st1 := { st with memory := setMemoryCache cfg key e st.memory }
  if opts.persistent ≠ some false then
    setPersistentCache now key e wfIdb wfSess wfLoc st1
  else st1

/-- An already-expired session-tier entry (expiry 50). -/
def cexEntryExpired : CEntry (List Nat) :=
  { key := ascii "k", data := .plain (ascii "v"), timestamp := 0, expires := 50,
    priority := 2, size := 1, accessCount := 1, lastAccess := 0 }

/-- A fresh session-tier entry (expiry 1000). -/
def cexEntryFresh : CEntry (List Nat) :=
  { key := ascii "k", data := .plain (ascii "v"), timestamp := 0, expires := 1000,
    priority := 2, size := 1, accessCount := 1, lastAccess := 0 }

/-- State whose only entry for `k` sits, already expired, in sessionStorage. -/
def cexStateExpired : CacheState (List Nat) :=
  { memory := [], idb := none, session := [(ascii "k", some cexEntryExpired)],
    localS := [], stats := {} }

/-- State with an open (empty) IndexedDB store and a fresh entry for `k` only
in sessionStorage, the slower tier. -/
def cexStatePromo : CacheState (List Nat) :=
  { memory := [], idb := some [], session := [(ascii "k", some cexEntryFresh)],
    localS := [], stats := {} }

/-! ### Request pool (`KodikAPIOptimized.executeWithPool`)

The single-threaded event loop is modelled as a step relation: a `call` step
is the synchronous part of `executeWithPool` up to its first `await`, and a
`settle` step is the settlement of a shared promise, which resumes every
caller awaiting it and runs the creator's `finally` deleting the pool entry.
Producer invocations are counted; promise ids are allocated fresh. -/

/-- Pool state: `requestPool`, the next promise id, the number of executor
invocations so far, and which caller awaits which promise. -/
structure PoolState where
  pool : List (List Nat × Nat)
  nextId : Nat
  producerRuns : Nat
  waiters : List (Nat × Nat)

/-- A `call` step of `executeWithPool` (lines 264-273): reuse an active
request for the key, or run the executor and register the new promise. -/
def poolCall (caller : Nat) (key : List Nat) (st : PoolState) : Nat × PoolState :=
  match mapFind key st.pool with
  | some pid => (pid, { st with waiters := st.waiters ++ [(caller, pid)] })
  | none =>
    (st.nextId,
     { pool := mapSet key st.nextId st.pool
       nextId := st.nextId + 1
       producerRuns := st.producerRuns + 1
       waiters := st.waiters ++ [(caller, st.nextId)] })

/-- A `settle` step (lines 275-280): the promise `pid` settles with outcome
`o` (fulfilled or rejected); every awaiting caller receives that same
outcome, and the creator's `finally` removes the pool entry.  Returns the new
state and the deliveries. -/
def poolSettle {O : Type} (pid : Nat) (o : O) (st : PoolState) :
    PoolState × List (Nat × O) :=
  ({ st with
     pool := st.pool.filter (fun kv => kv.2 != pid)
     waiters := st.waiters.filter (fun w => w.2 != pid) },
   (st.waiters.filter (fun w => w.2 == pid)).map (fun w => (w.1, o)))

/-! ### Token refresh per call chain

`KodikAPI.apiRequest` (`kodik-client.ts` lines 85-115) and
`KodikAPIOptimized.performApiRequestWithRetry` (lines 320-400).  A call chain
is driven by the list of responses the server returns to its successive
attempts; each constructor mirrors one branch of the response handling.  The
pair returned is (outcome, number of forced token refreshes); outcome `none`
means the chain was still running when the listed responses ran out. -/

/-- One server response to an API POST. -/
inductive ApiResp where
  | httpErr : Nat → ApiResp
  | errToken : ApiResp
  | errOther : List Nat → ApiResp
  | okResp : Nat → ApiResp
deriving DecidableEq

/-- Error kinds surfaced by a call chain. -/
inductive ApiErr where
  | http : Nat → ApiErr
  | api : List Nat → ApiErr
  | noResults : ApiErr
  | unexpected : ApiErr
deriving DecidableEq

/-- `KodikAPI.apiRequest`: on a token-invalid error it clears the token and
recurses with no bound; each recursion forces one token refresh. -/
def apiRequest : List ApiResp → Option (Except ApiErr Nat) × Nat
  | [] => (none, 0)
  | r :: rest =>
    match r with
    | .httpErr code => (some (.error (.http code)), 0)
    | .errToken =>
      let p := apiRequest rest
      (p.1, p.2 + 1)
    | .errOther m => (some (.error (.api m)), 0)
    | .okResp total =>
      if total = 0 then (some (.error .noResults), 0) else (some (.ok total), 0)

/-- The retry loop of `performApiRequestWithRetry`: attempts run from 1 to
`maxRetries`; a token-invalid response forces a refresh and continues only
while `attempt < maxRetries`; other failures retry with backoff up to the
bound; falling out of the loop throws `Unexpected error`. -/
def retryGo (maxRetries attempt : Nat) (resps : List ApiResp) :
    Option (Except ApiErr Nat) × Nat :=
  if maxRetries < attempt then (some (.error .unexpected), 0)
  else
    match resps with
    | [] => (none, 0)
    | r :: rest =>
      match r with
      | .okResp total => (some (.ok total), 0)
      | .httpErr code =>
        if attempt = maxRetries then (some (.error (.http code)), 0)
        else retryGo maxRetries (attempt + 1) rest
      | .errOther m =>
        if attempt = maxRetries then (some (.error (.api m)), 0)
        else retryGo maxRetries (attempt + 1) rest
      | .errToken =>
        if attempt < maxRetries then
          let p := retryGo maxRetries (attempt + 1) rest
          (p.1, p.2 + 1)
        else (some (.error (.api (ascii "token"))), 0)
termination_by maxRetries + 1 - attempt

/-- `performApiRequestWithRetry` with its configured retry bound (default 2). -/
def performApiRequestWithRetry (maxRetries : Nat) (resps : List ApiResp) :
    Option (Except ApiErr Nat) × Nat :=
  retryGo maxRetries 1 resps

/-! ### Parameter hashing (`KodikAPIOptimized.hashParams`, lines 405-414)

`hashParams` sorts the keys of the parameter object, rebuilds the object in
sorted key order, and takes the first 16 characters of the base64 of its JSON
text.  Parameter values here are strings, numbers or booleans. -/

/-- A parameter value. -/
inductive PVal where
  | str : List Nat → PVal
  | num : Int → PVal
  | bool : Bool → PVal
deriving DecidableEq

/-- JSON string escaping of quote and backslash (the characters occurring in
this API's parameter data). -/
def jsonEscape (s : List Nat) : List Nat :=
  s.foldr (fun c acc => if c = 34 ∨ c = 92 then 92 :: c :: acc else c :: acc) []

/-- A JSON string literal. -/
def jsonStr (s : List Nat) : List Nat := 34 :: (jsonEscape s ++ [34])

/-- JSON text of a parameter value. -/
def jsonOfPVal : PVal → List Nat
  | .str s => jsonStr s
  | .num n => ascii (toString n)
  | .bool b => ascii (toString b)

/-- Comma-join JSON member texts. -/
def joinComma : List (List Nat) → List Nat
  | [] => []
  | [x] => x
  | x :: y :: r => x ++ 44 :: joinComma (y :: r)

/-- `JSON.stringify` of a flat object given as ordered members. -/
def jsonObj (l : List (List Nat × PVal)) : List Nat :=
  123 :: (joinComma (l.map (fun kv => jsonStr kv.1 ++ 58 :: jsonOfPVal kv.2)) ++ [125])

/-- `hashParams`: `Object.keys(params).sort()` (code-unit lexicographic),
rebuild the object in that key order, then `btoa(JSON.stringify(.)).slice(0,16)`.
The keys come from the object itself, so every lookup succeeds; a missing
lookup falls back to an arbitrary placeholder. -/
def hashParams (params : List (List Nat × PVal)) : List Nat :=
  let sortedKeys := List.insertionSort (fun a b => a ≤ b) (params.map Prod.fst)
  let sorted := sortedKeys.map (fun k => (k, (mapFind k params).getD (.bool false)))
  (btoa (jsonObj sorted)).take 16

/-- The cache and pool key of `KodikAPIOptimized.apiRequest` (line 292):
`api_${endpoint}_${this.hashParams(params)}`; the same string keys the
response cache and the request pool (lines 295, 301). -/
def apiCacheKey (endpoint : List Nat) (params : List (List Nat × PVal)) : List Nat :=
  ascii "api_" ++ endpoint ++ ascii "_" ++ hashParams params

end KodikFix

/-! ## Theorems -/

namespace KodikFix


/-- Claim C4: while a producer invocation for a key is in flight in the
request pool, a further call with the same key joins the same promise without
invoking the producer and without touching the pool; a fresh call runs the
producer exactly once and registers the new promise; the pool entry is
removed exactly at the settle step, identically for fulfilment and rejection;
and every caller joined to one promise receives the same outcome. -/
theorem executeWithPool_single_flight :
    (∀ (st : PoolState) (c : Nat) (key : List Nat) (pid : Nat),
      mapFind key st.pool = some pid →
        (poolCall c key st).1 = pid ∧
        (poolCall c key st).2.producerRuns = st.producerRuns ∧
        (poolCall c key st).2.pool = st.pool) ∧
    (∀ (st : PoolState) (c : Nat) (key : List Nat),
      mapFind key st.pool = none →
        (poolCall c key st).2.producerRuns = st.producerRuns + 1 ∧
        (poolCall c key st).2.pool = mapSet key st.nextId st.pool) ∧
    (∀ (st : PoolState) (pid : Nat) (o1 o2 : Except (List Nat) Nat),
      (poolSettle pid o1 st).1.pool = st.pool.filter (fun kv => kv.2 != pid) ∧
      (poolSettle pid o1 st).1 = (poolSettle pid o2 st).1) ∧
    (∀ (st : PoolState) (pid : Nat) (o : Except (List Nat) Nat) (c1 c2 : Nat)
       (x y : Except (List Nat) Nat),
      (c1, x) ∈ (poolSettle pid o st).2 → (c2, y) ∈ (poolSettle pid o st).2 → x = y) := by
  refine ⟨?_, ?_, ?_, ?_⟩
  · intro st c key pid h
    simp [poolCall, h]
  · intro st c key h
    simp [poolCall, h]
  · intro st pid o1 o2
    simp [poolSettle]
  · intro st pid o c1 c2 x y hx hy
    simp [poolSettle] at hx hy
    obtain ⟨w1, hw1, _, hx⟩ := hx
    obtain ⟨w2, hw2, _, hy⟩ := hy
    rw [← hx, ← hy]

/-- Witness: a second call for a pooled key joins the existing promise. -/
theorem executeWithPool_single_flight_witness :
    (poolCall 7 (ascii "k")
      { pool := [(ascii "k", 3)], nextId := 5, producerRuns := 1, waiters := [] }).1 = 3 :=
  (executeWithPool_single_flight.1 _ 7 (ascii "k") 3 (by decide)).1

theorem retryGo_bound : ∀ (m a : Nat) (resps : List ApiResp), (retryGo m a resps).2 ≤ m - a := by
  intro m a resps
  induction resps generalizing a with
  | nil =>
    rw [retryGo.eq_def]
    split <;> simp
  | cons r rest ih =>
    rw [retryGo.eq_def]
    split
    · simp
    · cases r with
      | httpErr code =>
        dsimp only
        split
        · simp
        · exact le_trans (ih (a+1)) (by omega)
      | errOther m2 =>
        dsimp only
        split
        · simp
        · exact le_trans (ih (a+1)) (by omega)
      | okResp t => simp
      | errToken =>
        dsimp only
        split
        · rename_i hna hlt
          have := ih (a+1)
          omega
        · simp

/-- Claim C8 (amended): the optimized client's call chain
(`performApiRequestWithRetry`) forces at most `maxRetries - 1` token
refreshes, hence at most one with the default `retries = 2`; the legacy
`KodikAPI.apiRequest`, by contrast, refreshes once per consecutive
token-invalid response with no bound — `n` such responses yield `n` refreshes
in a single call chain. -/
theorem token_refresh_bounds :
    (∀ n : Nat, apiRequest (List.replicate n .errToken ++ [.okResp 1]) = (some (.ok 1), n)) ∧
    (∀ (m : Nat) (resps : List ApiResp), (performApiRequestWithRetry m resps).2 ≤ m - 1) ∧
    (∀ resps : List ApiResp, (performApiRequestWithRetry 2 resps).2 ≤ 1) := by
  refine ⟨?_, ?_, ?_⟩
  · intro n
    induction n with
    | zero => simp [apiRequest]
    | succ k ih => simp [List.replicate_succ, apiRequest, ih]
  · intro m resps
    exact retryGo_bound m 1 resps
  · intro resps
    exact retryGo_bound 2 1 resps

/-- Claim C8 counterexample: one legacy `apiRequest` call chain facing two
token-invalid responses performs two forced token refreshes before
succeeding, contradicting the at-most-once bound. -/
theorem apiRequest_double_refresh_cex : apiRequest [.errToken, .errToken, .okResp 5] = (some (.ok 5), 2) := by
  simp [apiRequest]
    

theorem convertChar_eq (c num : Nat) :
    convertChar c num =
      if 65 ≤ c ∧ c ≤ 90 then 65 + (c - 65 + num) % 26
      else if 97 ≤ c ∧ c ≤ 122 then 97 + (c - 97 + num) % 26
      else c := by
  simp only [convertChar, toUpperCode, toLowerCode]
  by_cases hL : 97 ≤ c ∧ c ≤ 122
  · have hU : ¬(65 ≤ c ∧ c ≤ 90) := by omega
    simp only [if_pos hL, if_neg hU]
    have h1 : 65 ≤ c - 32 ∧ c - 32 ≤ 90 := by omega
    simp only [if_pos h1]
    have h2 : (c == c) = true := by simp
    simp only [h2, if_true]
    have h3 : 65 ≤ 65 + (c - 32 - 65 + num) % 26 ∧ 65 + (c - 32 - 65 + num) % 26 ≤ 90 := by omega
    simp only [if_pos h3]
    omega
  · by_cases hU : 65 ≤ c ∧ c ≤ 90
    · simp only [if_pos hU, if_neg hL]
      have h2 : (c == c + 32) = false := by simp
      simp only [h2, Bool.false_eq_true, if_false]
    · simp only [if_neg hU, if_neg hL]


theorem convertChar_zero (c : Nat) : convertChar c 0 = c := by
  rw [convertChar_eq]
  split
  · omega
  · split <;> omega

theorem convertChar_comp (c a b : Nat) :
    convertChar (convertChar c a) b = convertChar c ((a + b) % 26) := by
  by_cases hU : 65 ≤ c ∧ c ≤ 90
  · have e1 : convertChar c a = 65 + (c - 65 + a) % 26 := by rw [convertChar_eq, if_pos hU]
    have h2 : 65 ≤ 65 + (c - 65 + a) % 26 ∧ 65 + (c - 65 + a) % 26 ≤ 90 := by omega
    rw [e1, convertChar_eq, if_pos h2, convertChar_eq, if_pos hU]
    omega
  · by_cases hL : 97 ≤ c ∧ c ≤ 122
    · have e1 : convertChar c a = 97 + (c - 97 + a) % 26 := by
        rw [convertChar_eq, if_neg hU, if_pos hL]
      have h2 : 97 ≤ 97 + (c - 97 + a) % 26 ∧ 97 + (c - 97 + a) % 26 ≤ 122 := by omega
      have h3 : ¬(65 ≤ 97 + (c - 97 + a) % 26 ∧ 97 + (c - 97 + a) % 26 ≤ 90) := by omega
      rw [e1, convertChar_eq, if_neg h3, if_pos h2, convertChar_eq, if_neg hU, if_pos hL]
      omega
    · have e1 : convertChar c a = c := by rw [convertChar_eq, if_neg hU, if_neg hL]
      rw [e1, convertChar_eq, if_neg hU, if_neg hL, convertChar_eq, if_neg hU, if_neg hL]

theorem map_convertChar_comp (s : List Nat) (a b : Nat) :
    (s.map (fun c => convertChar c a)).map (fun c => convertChar c b) =
      s.map (fun c => convertChar c ((a + b) % 26)) := by
  rw [List.map_map]
  exact List.map_congr_left (fun c _ => convertChar_comp c a b)

theorem map_convertChar_zero (s : List Nat) : s.map (fun c => convertChar c 0) = s := by
  simp [convertChar_zero]

theorem charToSextet_sextetToChar : ∀ n < 64, charToSextet (sextetToChar n) = some n := by
  decide

theorem sextetToChar_ne_61 (n : Nat) : sextetToChar n ≠ 61 := by
  unfold sextetToChar
  split
  · omega
  · split
    · omega
    · split
      · omega
      · split <;> omega

theorem sextetToChar_not_ws (n : Nat) : isB64Ws (sextetToChar n) = false := by
  unfold sextetToChar isB64Ws
  split
  · simp; omega
  · split
    · simp; omega
    · split
      · simp; omega
      · split <;> simp


theorem btoaBody_length (s : List Nat) :
    (btoaBody s).length = 4 * (s.length / 3) +
      (if s.length % 3 = 0 then 0 else if s.length % 3 = 1 then 2 else 3) := by
  induction s using btoaBody.induct with
  | case1 => simp [btoaBody]
  | case2 a => simp [btoaBody]
  | case3 a b => simp [btoaBody]
  | case4 a b c rest ih =>
    simp only [btoaBody, List.length_cons]
    rw [ih]
    have h5 : rest.length + 1 + 1 + 1 = rest.length + 3 := by omega
    have h3 : (rest.length + 3) / 3 = rest.length / 3 + 1 := by omega
    have h4 : (rest.length + 3) % 3 = rest.length % 3 := by omega
    simp only [h5, h3, h4]
    rcases (show rest.length % 3 = 0 ∨ rest.length % 3 = 1 ∨ rest.length % 3 = 2 by omega)
      with hm | hm | hm <;> simp [hm] <;> omega

theorem btoaBody_mem (s : List Nat) (h : ∀ b ∈ s, b < 256) :
    ∀ x ∈ btoaBody s, ∃ n, n < 64 ∧ x = sextetToChar n := by
  induction s using btoaBody.induct with
  | case1 => intro x hx; simp [btoaBody] at hx
  | case2 a =>
    have ha : a < 256 := h a (by simp)
    intro x hx
    simp [btoaBody] at hx
    rcases hx with hx | hx
    · exact ⟨a / 4, by omega, hx⟩
    · exact ⟨a % 4 * 16, by omega, hx⟩
  | case3 a b =>
    have ha : a < 256 := h a (by simp)
    have hb : b < 256 := h b (by simp)
    intro x hx
    simp [btoaBody] at hx
    rcases hx with hx | hx | hx
    · exact ⟨a / 4, by omega, hx⟩
    · exact ⟨a % 4 * 16 + b / 16, by omega, hx⟩
    · exact ⟨b % 16 * 4, by omega, hx⟩
  | case4 a b c rest ih =>
    have ha : a < 256 := h a (by simp)
    have hb : b < 256 := h b (by simp)
    have hc : c < 256 := h c (by simp)
    have hrest : ∀ x ∈ rest, x < 256 := fun x hx => h x (by simp [hx])
    intro x hx
    simp only [btoaBody, List.mem_cons] at hx
    rcases hx with hx | hx | hx | hx | hx
    · exact ⟨a / 4, by omega, hx⟩
    · exact ⟨a % 4 * 16 + b / 16, by omega, hx⟩
    · exact ⟨b % 16 * 4 + c / 64, by omega, hx⟩
    · exact ⟨c % 64, by omega, hx⟩
    · exact ih hrest x hx


theorem btoaBody_ne_61 (s : List Nat) (h : ∀ b ∈ s, b < 256) :
    ∀ x ∈ btoaBody s, x ≠ 61 := by
  intro x hx
  obtain ⟨n, -, rfl⟩ := btoaBody_mem s h x hx
  exact sextetToChar_ne_61 n

theorem btoa_filter_ws (s : List Nat) (h : ∀ b ∈ s, b < 256) :
    (btoa s).filter (fun c => !isB64Ws c) = btoa s := by
  rw [List.filter_eq_self]
  intro x hx
  rw [btoa, List.mem_append] at hx
  rcases hx with hx | hx
  · obtain ⟨n, -, rfl⟩ := btoaBody_mem s h x hx
    simp [sextetToChar_not_ws n]
  · rw [List.eq_of_mem_replicate hx]
    decide

theorem stripTrailingEq_no61 (l : List Nat) (h : ∀ x ∈ l, x ≠ 61) :
    stripTrailingEq l = l := by
  unfold stripTrailingEq
  cases hrev : l.reverse with
  | nil => rfl
  | cons a r =>
    have ha : a ∈ l := by
      rw [← List.mem_reverse, hrev]; exact List.mem_cons_self a r
    have ha61 : a ≠ 61 := h a ha
    cases r with
    | nil =>
      split
      · rename_i heq; simp at heq
      · rename_i heq
        injection heq with h1 h2
        exact absurd h1 ha61
      · rfl
    | cons b r2 =>
      split
      · rename_i heq
        injection heq with h1 h2
        exact absurd h1 ha61
      · rename_i heq
        injection heq with h1 h2
        exact absurd h1 ha61
      · rfl


theorem stripTrailingEq_append_two (l : List Nat) :
    stripTrailingEq (l ++ [61, 61]) = l := by
  unfold stripTrailingEq
  have hrev : (l ++ [61, 61]).reverse = 61 :: 61 :: l.reverse := by simp
  rw [hrev]
  simp

theorem stripTrailingEq_append_one (l : List Nat) (h : ∀ x ∈ l, x ≠ 61) :
    stripTrailingEq (l ++ [61]) = l := by
  unfold stripTrailingEq
  have hrev : (l ++ [61]).reverse = 61 :: l.reverse := by simp
  rw [hrev]
  cases hr : l.reverse with
  | nil =>
    have : l = [] := by simpa using congrArg List.reverse hr
    simp [this]
  | cons a r =>
    have ha : a ∈ l := by rw [← List.mem_reverse, hr]; exact List.mem_cons_self a r
    have ha61 : a ≠ 61 := h a ha
    split
    · rename_i heq
      injection heq with h1 h2
      injection h2 with h3 h4
      exact absurd h3 ha61
    · rename_i heq
      injection heq with h1 h2
      rw [← h2, ← hr]
      simp
    · rename_i hne1 hne2
      exact absurd rfl (hne2 (a :: r))


theorem mapOpt_btoaBody (s : List Nat) (h : ∀ b ∈ s, b < 256) :
    mapOpt charToSextet (btoaBody s) = some (toSex s) := by
  induction s using btoaBody.induct with
  | case1 => rfl
  | case2 a =>
    have ha : a < 256 := h a (by simp)
    have e1 := charToSextet_sextetToChar (a / 4) (by omega)
    have e2 := charToSextet_sextetToChar (a % 4 * 16) (by omega)
    simp [btoaBody, toSex, mapOpt, e1, e2]
  | case3 a b =>
    have ha : a < 256 := h a (by simp)
    have hb : b < 256 := h b (by simp)
    have e1 := charToSextet_sextetToChar (a / 4) (by omega)
    have e2 := charToSextet_sextetToChar (a % 4 * 16 + b / 16) (by omega)
    have e3 := charToSextet_sextetToChar (b % 16 * 4) (by omega)
    simp [btoaBody, toSex, mapOpt, e1, e2, e3]
  | case4 a b c rest ih =>
    have ha : a < 256 := h a (by simp)
    have hb : b < 256 := h b (by simp)
    have hc : c < 256 := h c (by simp)
    have hrest : ∀ x ∈ rest, x < 256 := fun x hx => h x (by simp [hx])
    have e1 := charToSextet_sextetToChar (a / 4) (by omega)
    have e2 := charToSextet_sextetToChar (a % 4 * 16 + b / 16) (by omega)
    have e3 := charToSextet_sextetToChar (b % 16 * 4 + c / 64) (by omega)
    have e4 := charToSextet_sextetToChar (c % 64) (by omega)
    simp [btoaBody, toSex, mapOpt, e1, e2, e3, e4, ih hrest]

theorem decodeSextets_toSex (s : List Nat) (h : ∀ b ∈ s, b < 256) :
    decodeSextets (toSex s) = s := by
  induction s using toSex.induct with
  | case1 => rfl
  | case2 a =>
    have ha : a < 256 := h a (by simp)
    simp only [toSex, decodeSextets]
    congr 1
    omega
  | case3 a b =>
    have ha : a < 256 := h a (by simp)
    have hb : b < 256 := h b (by simp)
    simp only [toSex, decodeSextets]
    congr 1
    · omega
    · congr 1
      omega
  | case4 a b c rest ih =>
    have ha : a < 256 := h a (by simp)
    have hb : b < 256 := h b (by simp)
    have hc : c < 256 := h c (by simp)
    have hrest : ∀ x ∈ rest, x < 256 := fun x hx => h x (by simp [hx])
    simp only [toSex, decodeSextets]
    rw [ih hrest]
    congr 1
    · omega
    · congr 1
      · omega
      · congr 1
        omega


theorem stripTrailingEq_btoa (s : List Nat) (h : ∀ b ∈ s, b < 256) :
    stripTrailingEq (btoa s) = btoaBody s := by
  have hne := btoaBody_ne_61 s h
  rw [btoa]
  rcases (show s.length % 3 = 0 ∨ s.length % 3 = 1 ∨ s.length % 3 = 2 by omega)
    with hm | hm | hm
  · rw [hm]
    norm_num
    exact stripTrailingEq_no61 _ hne
  · rw [hm]
    norm_num
    exact stripTrailingEq_append_two _
  · rw [hm]
    norm_num
    exact stripTrailingEq_append_one _ hne

theorem btoa_length_mod (s : List Nat) : (btoa s).length % 4 = 0 := by
  rw [btoa, List.length_append, btoaBody_length, List.length_replicate]
  rcases (show s.length % 3 = 0 ∨ s.length % 3 = 1 ∨ s.length % 3 = 2 by omega)
    with hm | hm | hm <;> simp [hm] <;> omega

theorem btoaBody_length_mod_ne_one (s : List Nat) : (btoaBody s).length % 4 ≠ 1 := by
  rw [btoaBody_length]
  rcases (show s.length % 3 = 0 ∨ s.length % 3 = 1 ∨ s.length % 3 = 2 by omega)
    with hm | hm | hm <;> simp [hm] <;> omega

theorem atob_btoa (s : List Nat) (h : ∀ b ∈ s, b < 256) : atob (btoa s) = some s := by
  rw [atob]
  simp only [btoa_filter_ws s h, btoa_length_mod s, Nat.zero_mod, beq_self_eq_true, if_true,
    stripTrailingEq_btoa s h]
  rw [if_neg (by simpa using btoaBody_length_mod_ne_one s)]
  rw [mapOpt_btoaBody s h]
  simp only [decodeSextets_toSex s h]


theorem filter61_btoa (s : List Nat) (h : ∀ b ∈ s, b < 256) :
    (btoa s).filter (fun c => c != 61) = btoaBody s := by
  rw [btoa, List.filter_append]
  have h1 : (btoaBody s).filter (fun c => c != 61) = btoaBody s := by
    rw [List.filter_eq_self]
    intro x hx
    simpa using btoaBody_ne_61 s h x hx
  have h2 : (List.replicate ((3 - s.length % 3) % 3) 61).filter (fun c => c != 61) = [] := by
    rw [List.filter_eq_nil_iff]
    intro x hx
    rw [List.eq_of_mem_replicate hx]
    simp
  rw [h1, h2, List.append_nil]

theorem encodeKodik_eq (r : Nat) (s : List Nat) (h : ∀ b ∈ s, b < 256) :
    encodeKodik r s = (btoaBody s).map (fun c => convertChar c r) := by
  rw [encodeKodik, filter61_btoa s h]

theorem pad_btoaBody (s : List Nat) :
    btoaBody s ++ List.replicate ((4 - (btoaBody s).length % 4) % 4) 61 = btoa s := by
  rw [btoa]
  congr 1
  rw [btoaBody_length]
  congr 1
  rcases (show s.length % 3 = 0 ∨ s.length % 3 = 1 ∨ s.length % 3 = 2 by omega)
    with hm | hm | hm <;> simp [hm] <;> omega

theorem tryRot_inverse (r : Nat) (s : List Nat) (hr : r < 26)
    (h : ∀ b ∈ s, b < 256) (hmark : occursIn manifestMarker s = true) :
    tryRot ((26 - r) % 26) (encodeKodik r s) = some s := by
  rw [tryRot, encodeKodik_eq r s h]
  have hc : (r + (26 - r) % 26) % 26 = 0 := by omega
  rw [map_convertChar_comp, hc, map_convertChar_zero]
  rw [pad_btoaBody, atob_btoa s h]
  simp [hmark]


theorem decryptGo_none_iff (s : List Nat) (rot : Nat) :
    decryptGo s rot = none ↔ ∀ i, rot ≤ i → i < 26 → tryRot i s = none := by
  induction rot using decryptGo.induct s with
  | case1 rot hlt d hd =>
    rw [decryptGo, if_pos hlt, hd]
    constructor
    · intro hv
      exact absurd hv (by simp)
    · intro hall
      exact absurd (hall rot le_rfl hlt) (by simp [hd])
  | case2 rot hlt hd ih =>
    rw [decryptGo, if_pos hlt, hd]
    rw [ih]
    constructor
    · intro hall i h1 h2
      rcases Nat.eq_or_lt_of_le h1 with rfl | hgt
      · exact hd
      · exact hall i hgt h2
    · intro hall i h1 h2
      exact hall i (by omega) h2
  | case3 rot hge =>
    rw [decryptGo, if_neg hge]
    simp only [true_iff]
    intro i h1 h2
    omega

theorem decryptGo_some_iff (s : List Nat) (rot : Nat) (v : List Nat) :
    decryptGo s rot = some v ↔
      ∃ i, rot ≤ i ∧ i < 26 ∧ tryRot i s = some v ∧
        ∀ j, rot ≤ j → j < i → tryRot j s = none := by
  induction rot using decryptGo.induct s with
  | case1 rot hlt d hd =>
    rw [decryptGo, if_pos hlt, hd]
    constructor
    · intro hv
      injection hv with hv
      exact ⟨rot, le_rfl, hlt, by rw [hd, hv], fun j h1 h2 => by omega⟩
    · rintro ⟨i, h1, h2, h3, h4⟩
      rcases Nat.eq_or_lt_of_le h1 with rfl | hgt
      · rw [hd] at h3; injection h3 with h3; rw [h3]
      · exact absurd hd (by simp [h4 rot le_rfl hgt])
  | case2 rot hlt hd ih =>
    rw [decryptGo, if_pos hlt, hd]
    rw [ih]
    constructor
    · rintro ⟨i, h1, h2, h3, h4⟩
      refine ⟨i, by omega, h2, h3, fun j hj1 hj2 => ?_⟩
      rcases Nat.eq_or_lt_of_le hj1 with rfl | hgt
      · exact hd
      · exact h4 j hgt hj2
    · rintro ⟨i, h1, h2, h3, h4⟩
      have hne : i ≠ rot := by
        rintro rfl
        rw [hd] at h3
        exact absurd h3 (by simp)
      exact ⟨i, by omega, h2, h3, fun j hj1 hj2 => h4 j (by omega) hj2⟩
  | case3 rot hge =>
    rw [decryptGo, if_neg hge]
    simp only [reduceCtorEq, false_iff, not_exists]
    rintro i ⟨h1, h2, -⟩
    omega


/-- Claim C3: `decryptKodikUrl` returns the decode of the first (smallest)
rotation candidate in `0..25` accepted by the loop body `tryRot` (forward
rotation, re-padding, successful `atob`, manifest marker present); it returns
`null` exactly when all 26 candidates are rejected, so no input whose 26
candidates all fail ever yields a non-null result; a malformed-base64
candidate is merely rejected, not fatal. -/
theorem decrypt_first_success (s : List Nat) :
    (∀ v, decryptKodikUrl s = some v ↔
      ∃ i, i < 26 ∧ tryRot i s = some v ∧ ∀ j, j < i → tryRot j s = none) ∧
    (decryptKodikUrl s = none ↔ ∀ i, i < 26 → tryRot i s = none) := by
  constructor
  · intro v
    rw [decryptKodikUrl, decryptGo_some_iff]
    constructor
    · rintro ⟨i, -, h2, h3, h4⟩
      exact ⟨i, h2, h3, fun j hj => h4 j (Nat.zero_le j) hj⟩
    · rintro ⟨i, h2, h3, h4⟩
      exact ⟨i, Nat.zero_le i, h2, h3, fun j _ hj => h4 j hj⟩
  · rw [decryptKodikUrl, decryptGo_none_iff]
    constructor
    · intro hall i h2
      exact hall i (Nat.zero_le i) h2
    · intro hall i _ h2
      exact hall i h2

/-- Claim C2 (amended): for a rotation `r < 26` and a marker-containing byte
string `s`, running `decryptKodikUrl` on the rotated, padding-stripped base64
encoding of `s` returns exactly `s` provided no loop candidate smaller than
the inverse rotation `(26 - r) % 26` is accepted (for `r = 0` this proviso is
vacuous).  Without it the resolver can return a different marker-containing
decode, as `decrypt_roundtrip_cex` shows. -/
theorem decrypt_encode_roundtrip (r : Nat) (s : List Nat) (hr : r < 26)
    (hbytes : ∀ b ∈ s, b < 256)
    (hmark : occursIn manifestMarker s = true)
    (hfirst : ∀ i, i < (26 - r) % 26 → tryRot i (encodeKodik r s) = none) :
    decryptKodikUrl (encodeKodik r s) = some s := by
  rw [decryptKodikUrl, decryptGo_some_iff]
  exact ⟨(26 - r) % 26, Nat.zero_le _, by omega, tryRot_inverse r s hr hbytes hmark,
    fun j _ hj => hfirst j hj⟩

/-- Witness: the C2 theorem applied at rotation 0 to a concrete manifest
URL. -/
theorem decrypt_encode_roundtrip_witness :
    decryptKodikUrl (encodeKodik 0 (ascii "https://x/mp4:hls:manifest/abc")) =
      some (ascii "https://x/mp4:hls:manifest/abc") :=
  decrypt_encode_roundtrip 0 (ascii "https://x/mp4:hls:manifest/abc") (by decide) (by decide) (by decide)
    (fun i hi => absurd hi (by omega))

/-- Claim C2 counterexample: `rotBreakSrc` contains the manifest marker, yet
decrypting its rotation-1 encoding does not return `rotBreakSrc` — the
rotation-0 candidate already decodes to a different marker-carrying string. -/
theorem decrypt_roundtrip_cex :
    occursIn manifestMarker rotBreakSrc = true ∧
    decryptKodikUrl (encodeKodik 1 rotBreakSrc) ≠ some rotBreakSrc := by
  refine ⟨by decide, ?_⟩
  have ht : tryRot 0 (encodeKodik 1 rotBreakSrc) = some rotBreakOut := by decide
  rw [decryptKodikUrl, decryptGo, if_pos (by omega), ht]
  intro hcontra
  injection hcontra with hcontra
  exact absurd hcontra (by decide)


theorem foldl_jsMax_val (ns : List Int) (a : Int) :
    (ns.map JsNum.val).foldl jsMax2 (.val a) = .val (ns.foldl max a) := by
  induction ns generalizing a with
  | nil => rfl
  | cons n rest ih => simp only [List.map_cons, List.foldl_cons, jsMax2, ih]

theorem foldl_max_init (ns : List Int) (a : Int) : a ≤ ns.foldl max a := by
  induction ns generalizing a with
  | nil => simp
  | cons m rest ih => exact le_trans (le_max_left a m) (ih (max a m))

theorem foldl_max_ub (ns : List Int) : ∀ (a n : Int), n ∈ ns → n ≤ ns.foldl max a := by
  induction ns with
  | nil => intro a n h; simp at h
  | cons m rest ih =>
    intro a n h
    rw [List.foldl_cons]
    rcases List.mem_cons.mp h with rfl | h2
    · exact le_trans (le_max_right a n) (foldl_max_init rest (max a n))
    · exact ih (max a m) n h2

theorem foldl_max_mem (ns : List Int) (a : Int) :
    ns.foldl max a = a ∨ ns.foldl max a ∈ ns := by
  induction ns generalizing a with
  | nil => simp
  | cons m rest ih =>
    rcases ih (max a m) with h | h
    · rcases max_choice a m with hm | hm
      · left; rw [List.foldl_cons, h, hm]
      · right; rw [List.foldl_cons, h, hm]; exact List.mem_cons_self m rest
    · right; exact List.mem_cons_of_mem m h


/-- Claim C1 (amended): on success `getVideoLinks` returns `maxQuality`
equal to the greatest integer among the quality keys of the link table, but
the returned `url` is derived from the first link stored under the base
quality key `'360'` (passed through the cipher resolver unless it already
carries the manifest marker), not from the link under the maximum key;
`getVideoUrl` then strips `https:` and trims to the directory part. -/
theorem getVideoLinks_spec (t : LinksTable) (src0 : List Nat) (rest : List (List Nat))
    (h360 : tableGet t (ascii "360") = some (src0 :: rest))
    (u : List Nat)
    (hres : (if occursIn manifestMarker src0 then some src0 else decryptKodikUrl src0) = some u)
    (hq : ∀ kv ∈ t, (jsParseInt kv.1).isSome) :
    ∃ M : Int,
      getVideoLinks t = .ok (u, .val M) ∧
      getVideoUrlResult t = .ok (cleanVideoUrl u, .val M) ∧
      (∀ kv ∈ t, ∀ n : Int, jsParseInt kv.1 = some n → n ≤ M) ∧
      (∃ kv ∈ t, jsParseInt kv.1 = some M) := by
  have hqmap : t.map (fun kv => jsNumOfParse (jsParseInt kv.1)) =
      (t.map (fun kv => (jsParseInt kv.1).getD 0)).map JsNum.val := by
    rw [List.map_map]
    refine List.map_congr_left (fun kv hkv => ?_)
    have := hq kv hkv
    cases hp : jsParseInt kv.1 with
    | none => rw [hp] at this; simp at this
    | some n => simp [jsNumOfParse, hp]
  cases ht : t with
  | nil => rw [ht] at h360; simp [tableGet, mapFind] at h360
  | cons kv0 trest =>
    rw [← ht]
    have hkv0t : kv0 ∈ t := by rw [ht]; exact List.mem_cons_self kv0 trest
    have hn0 : jsParseInt kv0.1 = some ((jsParseInt kv0.1).getD 0) := by
      have := hq kv0 hkv0t
      cases hp : jsParseInt kv0.1 with
      | none => rw [hp] at this; simp at this
      | some n => simp
    set n0 : Int := (jsParseInt kv0.1).getD 0 with hn0def
    set nsTail : List Int := trest.map (fun kv => (jsParseInt kv.1).getD 0) with hnsTail
    have hmax : mathMax (t.map (fun kv => jsNumOfParse (jsParseInt kv.1))) =
        .val (nsTail.foldl max n0) := by
      rw [hqmap, mathMax, ht]
      simp only [List.map_cons, List.foldl_cons, jsMax2]
      exact foldl_jsMax_val nsTail n0
    refine ⟨nsTail.foldl max n0, ?_, ?_, ?_, ?_⟩
    · rw [getVideoLinks, h360]
      simp only [hres, hmax]
    · rw [getVideoUrlResult, getVideoLinks, h360]
      simp only [hres, hmax, Except.map]
    · intro kv hkv n hn
      rw [ht] at hkv
      rcases List.mem_cons.mp hkv with rfl | hkv2
      · rw [hn0] at hn
        injection hn with hinj
        rw [← hinj]
        exact foldl_max_init nsTail n0
      · have hmem : n ∈ nsTail := by
          rw [hnsTail]
          exact List.mem_map.mpr ⟨kv, hkv2, by simp [hn]⟩
        exact foldl_max_ub nsTail n0 n hmem
    · rcases foldl_max_mem nsTail n0 with h | h
      · exact ⟨kv0, hkv0t, by rw [h, hn0]⟩
      · obtain ⟨kv, hkv, hval⟩ := List.mem_map.mp (by rw [hnsTail] at h; exact h)
        refine ⟨kv, by rw [ht]; exact List.mem_cons_of_mem kv0 hkv, ?_⟩
        have := hq kv (by rw [ht]; exact List.mem_cons_of_mem kv0 hkv)
        cases hp : jsParseInt kv.1 with
        | none => rw [hp] at this; simp at this
        | some m => rw [hp] at hval; simp at hval; rw [hval]

/-- Witness: the C1 theorem applied to the scenario-B link table. -/
theorem getVideoLinks_spec_witness : ∃ M : Int, getVideoLinks cexLinks = .ok (cexSrcA, .val M) := by
  obtain ⟨M, h1, -, -, -⟩ :=
    getVideoLinks_spec cexLinks cexSrcA [] (by decide) cexSrcA (by decide) (by decide)
  exact ⟨M, h1⟩

/-- Claim C1 counterexample: on the scenario-B table
`{360: [srcA], 720: [srcB]}` the code returns `maxQuality = 720` but a `url`
derived from `srcA` (the `'360'` link), which differs from the `url` the
claim demands (derived from `srcB`). -/
theorem getVideoLinks_max_url_cex :
    getVideoUrlResult cexLinks = .ok (cleanVideoUrl cexSrcA, .val 720) ∧
    cleanVideoUrl cexSrcA ≠ cleanVideoUrl cexSrcB := by
  constructor
  · rfl
  · decide


theorem mapFind_mem_of_eq_some {α : Type} (p : List (List Nat × α)) (k : List Nat) (v : α)
    (h : mapFind k p = some v) : (k, v) ∈ p := by
  induction p with
  | nil => simp [mapFind] at h
  | cons kv rest ih =>
    rw [mapFind] at h
    split at h
    · rename_i heq
      injection h with h
      rcases kv with ⟨k0, v0⟩
      simp only at heq h
      rw [← heq, ← h]
      exact List.mem_cons_self _ _
    · exact List.mem_cons_of_mem kv (ih h)

theorem mapFind_eq_some_of_mem {α : Type} (p : List (List Nat × α))
    (hnd : (p.map Prod.fst).Nodup) (k : List Nat) (v : α) (h : (k, v) ∈ p) :
    mapFind k p = some v := by
  induction p with
  | nil => simp at h
  | cons kv rest ih =>
    rw [List.map_cons, List.nodup_cons] at hnd
    rcases List.mem_cons.mp h with rfl | h2
    · rw [mapFind, if_pos rfl]
    · rw [mapFind]
      split
    /- the key of the head differs from k, else nodup is violated -/
      · rename_i heq
        exact absurd (heq ▸ List.mem_map_of_mem Prod.fst h2) hnd.1
      · exact ih hnd.2 h2

theorem mapFind_none_iff {α : Type} (p : List (List Nat × α)) (k : List Nat) :
    mapFind k p = none ↔ k ∉ p.map Prod.fst := by
  induction p with
  | nil => simp [mapFind]
  | cons kv rest ih =>
    rw [mapFind]
    split
    · rename_i heq
      simp [heq]
    · rename_i hne
      simp only [List.map_cons, List.mem_cons]
      rw [ih]
      constructor
      · rintro hnm (h1 | h2)
        · exact hne h1.symm
        · exact hnm h2
      · intro hn
        exact fun h2 => hn (Or.inr h2)

theorem mapFind_perm {α : Type} (p q : List (List Nat × α)) (hperm : p.Perm q)
    (hnd : (p.map Prod.fst).Nodup) (k : List Nat) : mapFind k p = mapFind k q := by
  have hndq : (q.map Prod.fst).Nodup := (hperm.map Prod.fst).nodup_iff.mp hnd
  cases hp : mapFind k p with
  | some v =>
    exact (mapFind_eq_some_of_mem q hndq k v (hperm.mem_iff.mp (mapFind_mem_of_eq_some p k v hp))).symm
  | none =>
    symm
    rw [mapFind_none_iff] at hp ⊢
    exact fun h => hp ((hperm.map Prod.fst).mem_iff.mpr h)

/-- Claim C10: `hashParams` is insensitive to the enumeration order of the
parameter object — parameter lists with the same key-value pairs in any
order hash identically, so the `api_` cache key, which also keys the
in-flight request pool, coincides and the two calls share one cache entry
and one deduplicated request. -/
theorem hashParams_perm (p q : List (List Nat × PVal)) (hperm : p.Perm q)
    (hnd : (p.map Prod.fst).Nodup) :
    hashParams p = hashParams q ∧
      ∀ endpoint, apiCacheKey endpoint p = apiCacheKey endpoint q := by
  have hkeys : List.insertionSort (fun a b => a ≤ b) (p.map Prod.fst) =
      List.insertionSort (fun a b => a ≤ b) (q.map Prod.fst) := by
    refine List.eq_of_perm_of_sorted ?_ (List.sorted_insertionSort _ _) (List.sorted_insertionSort _ _)
    exact (List.perm_insertionSort _ _).trans ((hperm.map Prod.fst).trans (List.perm_insertionSort _ _).symm)
  have hfind : ∀ k, mapFind k p = mapFind k q := mapFind_perm p q hperm hnd
  have hhash : hashParams p = hashParams q := by
    simp only [hashParams]
    rw [hkeys]
    have hmaps : ∀ ks : List (List Nat),
        ks.map (fun k => (k, (mapFind k p).getD (PVal.bool false))) =
        ks.map (fun k => (k, (mapFind k q).getD (PVal.bool false))) :=
      fun ks => List.map_congr_left (fun k _ => by rw [hfind k])
    rw [hmaps]
  exact ⟨hhash, fun endpoint => by rw [apiCacheKey, apiCacheKey, hhash]⟩

/-- Witness: two concrete two-field parameter objects in swapped order. -/
theorem hashParams_perm_witness :
    hashParams [(ascii "b", .num 1), (ascii "a", .str (ascii "x"))] =
      hashParams [(ascii "a", .str (ascii "x")), (ascii "b", .num 1)] :=
  (hashParams_perm _ _ (by decide) (by decide)).1


theorem mapFind_mapSet_self {α : Type} (k : List Nat) (v : α) (m : List (List Nat × α)) :
    mapFind k (mapSet k v m) = some v := by
  induction m with
  | nil => simp [mapSet, mapFind]
  | cons kv rest ih =>
    rw [mapSet]
    split
    · rw [mapFind, if_pos rfl]
    · rename_i hne
      rw [mapFind, if_neg hne]
      exact ih

theorem length_mapSet {α : Type} (k : List Nat) (v w : α) (m : List (List Nat × α)) :
    (mapSet k v m).length = (mapSet k w m).length := by
  induction m with
  | nil => rfl
  | cons kv rest ih =>
    rw [mapSet, mapSet]
    split
    · rfl
    · simp only [List.length_cons, ih]

theorem mem_mapDelete {α : Type} (k : List Nat) (m : List (List Nat × α)) (kv : List Nat × α) :
    kv ∈ mapDelete k m ↔ kv ∈ m ∧ kv.1 ≠ k := by
  induction m with
  | nil => simp [mapDelete]
  | cons kv0 rest ih =>
    rw [mapDelete]
    split
    · rename_i heq
      rw [ih]
      constructor
      · rintro ⟨h1, h2⟩
        exact ⟨List.mem_cons_of_mem kv0 h1, h2⟩
      · rintro ⟨h1, h2⟩
        rcases List.mem_cons.mp h1 with rfl | h3
        · exact absurd heq h2
        · exact ⟨h3, h2⟩
    · rename_i hne
      simp only [List.mem_cons, ih]
      constructor
      · rintro (rfl | ⟨h1, h2⟩)
        · exact ⟨Or.inl rfl, hne⟩
        · exact ⟨Or.inr h1, h2⟩
      · rintro ⟨rfl | h1, h2⟩
        · exact Or.inl rfl
        · exact Or.inr ⟨h1, h2⟩

theorem mapDelete_keys_nodup {α : Type} (k : List Nat) (m : List (List Nat × α))
    (h : (m.map Prod.fst).Nodup) : ((mapDelete k m).map Prod.fst).Nodup := by
  induction m with
  | nil => simp [mapDelete]
  | cons kv rest ih =>
    rw [List.map_cons, List.nodup_cons] at h
    rw [mapDelete]
    split
    · exact ih h.2
    · rw [List.map_cons, List.nodup_cons]
      refine ⟨fun hmem => ?_, ih h.2⟩
      obtain ⟨kv2, hkv2, hfst⟩ := List.mem_map.mp hmem
      have : kv2 ∈ rest := ((mem_mapDelete k rest kv2).mp hkv2).1
      exact h.1 (List.mem_map.mpr ⟨kv2, this, hfst⟩)

theorem mapDelete_not_mem {α : Type} (k : List Nat) (m : List (List Nat × α))
    (h : ∀ kv ∈ m, kv.1 ≠ k) : mapDelete k m = m := by
  induction m with
  | nil => rfl
  | cons a b ihr =>
    rw [mapDelete, if_neg (h a (List.mem_cons_self a b))]
    rw [ihr (fun kv hkv => h kv (List.mem_cons_of_mem a hkv))]

theorem head_key_not_in_rest {α : Type} (k : List Nat) (e : α)
    (rest : List (List Nat × α)) (hnd : ((((k, e) : List Nat × α) :: rest).map Prod.fst).Nodup) :
    ∀ kv ∈ rest, kv.1 ≠ k := by
  rw [List.map_cons, List.nodup_cons] at hnd
  intro kv hkv hk
  exact hnd.1 (List.mem_map.mpr ⟨kv, hkv, by rw [hk]⟩)

theorem sumSizes_mapDelete {V : Type} (k : List Nat) (e : CEntry V)
    (m : List (List Nat × CEntry V)) (hnd : (m.map Prod.fst).Nodup)
    (hmem : (k, e) ∈ m) :
    sumSizes m = sumSizes (mapDelete k m) + e.size := by
  induction m with
  | nil => simp at hmem
  | cons kv rest ih =>
    rcases List.mem_cons.mp hmem with heq | h2
    · rw [← heq] at hnd ⊢
      have hdel : mapDelete k ((k, e) :: rest) = rest := by
        rw [mapDelete, if_pos rfl]
        exact mapDelete_not_mem k rest (head_key_not_in_rest k e rest hnd)
      rw [hdel]
      simp [sumSizes]
      omega
    · rw [List.map_cons, List.nodup_cons] at hnd
      have hne : kv.1 ≠ k := by
        intro hk
        have : k ∈ rest.map Prod.fst := List.mem_map.mpr ⟨(k, e), h2, rfl⟩
        rw [← hk] at this
        exact hnd.1 this
      rw [mapDelete, if_neg hne]
      have := ih hnd.2 h2
      simp only [sumSizes, List.map_cons, List.sum_cons] at this ⊢
      omega

theorem length_mapDelete {α : Type} (k : List Nat) (e : α)
    (m : List (List Nat × α)) (hnd : (m.map Prod.fst).Nodup)
    (hmem : (k, e) ∈ m) :
    m.length = (mapDelete k m).length + 1 := by
  induction m with
  | nil => simp at hmem
  | cons kv rest ih =>
    rcases List.mem_cons.mp hmem with heq | h2
    · rw [← heq] at hnd ⊢
      have hdel : mapDelete k ((k, e) :: rest) = rest := by
        rw [mapDelete, if_pos rfl]
        exact mapDelete_not_mem k rest (head_key_not_in_rest k e rest hnd)
      rw [hdel]
      simp
    · rw [List.map_cons, List.nodup_cons] at hnd
      have hne : kv.1 ≠ k := by
        intro hk
        have : k ∈ rest.map Prod.fst := List.mem_map.mpr ⟨(k, e), h2, rfl⟩
        rw [← hk] at this
        exact hnd.1 this
      rw [mapDelete, if_neg hne]
      simp only [List.length_cons]
      rw [ih hnd.2 h2]


theorem entryLE_total {V : Type} (a b : List Nat × CEntry V) :
    entryLE a b = true ∨ entryLE b a = true := by
  rw [entryLE, entryLE]
  simp only [Bool.or_eq_true, Bool.and_eq_true, Nat.blt_eq, Nat.ble_eq, beq_iff_eq]
  omega

theorem entryLE_trans {V : Type} (a b c : List Nat × CEntry V)
    (h1 : entryLE a b = true) (h2 : entryLE b c = true) : entryLE a c = true := by
  rw [entryLE] at h1 h2 ⊢
  simp only [Bool.or_eq_true, Bool.and_eq_true, Nat.blt_eq, Nat.ble_eq, beq_iff_eq] at h1 h2 ⊢
  omega

theorem insertStable_perm {α : Type} (le : α → α → Bool) (x : α) (l : List α) :
    (insertStable le x l).Perm (x :: l) := by
  induction l with
  | nil => exact List.Perm.refl _
  | cons y ys ih =>
    rw [insertStable]
    split
    · exact (ih.cons y).trans (List.Perm.swap x y ys)
    · exact List.Perm.refl _

theorem sortStable_perm {α : Type} (le : α → α → Bool) (l : List α) :
    (sortStable le l).Perm l := by
  suffices h : ∀ (acc : List α), (l.foldl (fun acc x => insertStable le x acc) acc).Perm (l ++ acc) by
    have := h []
    rw [List.append_nil] at this
    exact this
  induction l with
  | nil => intro acc; simp
  | cons x xs ih =>
    intro acc
    rw [List.foldl_cons]
    refine (ih (insertStable le x acc)).trans ?_
    exact (List.Perm.append_left xs (insertStable_perm le x acc)).trans List.perm_middle

theorem insertStable_sorted {V : Type} (x : List Nat × CEntry V)
    (l : List (List Nat × CEntry V)) (hs : l.Pairwise (fun a b => entryLE a b = true)) :
    (insertStable entryLE x l).Pairwise (fun a b => entryLE a b = true) := by
  induction l with
  | nil => simp [insertStable]
  | cons y ys ih =>
    rw [List.pairwise_cons] at hs
    rw [insertStable]
    split
    · rename_i hyx
      rw [List.pairwise_cons]
      refine ⟨fun b hb => ?_, ih hs.2⟩
      rcases List.mem_cons.mp ((insertStable_perm entryLE x ys).mem_iff.mp hb) with rfl | h
      · exact hyx
      · exact hs.1 b h
    · rename_i hyx
      have hxy : entryLE x y = true := by
        rcases entryLE_total x y with h | h
        · exact h
        · exact absurd h hyx
      rw [List.pairwise_cons]
      refine ⟨fun b hb => ?_, List.pairwise_cons.mpr hs⟩
      rcases List.mem_cons.mp hb with rfl | h
      · exact hxy
      · exact entryLE_trans x y b hxy (hs.1 b h)

theorem sortStable_sorted {V : Type} (l : List (List Nat × CEntry V)) :
    (sortStable entryLE l).Pairwise (fun a b => entryLE a b = true) := by
  suffices h : ∀ (acc : List (List Nat × CEntry V)),
      acc.Pairwise (fun a b => entryLE a b = true) →
      (l.foldl (fun acc x => insertStable entryLE x acc) acc).Pairwise (fun a b => entryLE a b = true) by
    exact h [] (by simp)
  induction l with
  | nil => intro acc hacc; simpa using hacc
  | cons x xs ih =>
    intro acc hacc
    rw [List.foldl_cons]
    exact ih _ (insertStable_sorted x acc hacc)


theorem foldl_delete_mem {V : Type} (ds : List (List Nat × CEntry V))
    (m : List (List Nat × CEntry V)) (kv : List Nat × CEntry V) :
    kv ∈ ds.foldl (fun m kv => mapDelete kv.1 m) m ↔
      kv ∈ m ∧ kv.1 ∉ ds.map Prod.fst := by
  induction ds generalizing m with
  | nil => simp
  | cons d rest ih =>
    rw [List.foldl_cons, ih, mem_mapDelete]
    simp only [List.map_cons, List.mem_cons]
    constructor
    · rintro ⟨⟨h1, h2⟩, h3⟩
      exact ⟨h1, fun h => h.elim h2 h3⟩
    · rintro ⟨h1, h2⟩
      exact ⟨⟨h1, fun h => h2 (Or.inl h)⟩, fun h => h2 (Or.inr h)⟩

theorem foldl_delete_nodup {V : Type} (ds : List (List Nat × CEntry V))
    (m : List (List Nat × CEntry V)) (hnd : (m.map Prod.fst).Nodup) :
    (((ds.foldl (fun m kv => mapDelete kv.1 m) m)).map Prod.fst).Nodup := by
  induction ds generalizing m with
  | nil => exact hnd
  | cons d rest ih => exact ih _ (mapDelete_keys_nodup d.1 m hnd)

theorem foldl_delete_length {V : Type} (ds : List (List Nat × CEntry V))
    (m : List (List Nat × CEntry V)) (hnd : (m.map Prod.fst).Nodup)
    (hpres : ∀ d ∈ ds, d ∈ m) (hdk : (ds.map Prod.fst).Nodup) :
    (ds.foldl (fun m kv => mapDelete kv.1 m) m).length + ds.length = m.length := by
  induction ds generalizing m with
  | nil => simp
  | cons d rest ih =>
    rw [List.foldl_cons]
    rw [List.map_cons, List.nodup_cons] at hdk
    have hd : d ∈ m := hpres d (List.mem_cons_self d rest)
    have hlen := length_mapDelete d.1 d.2 m hnd hd
    have hpres2 : ∀ e ∈ rest, e ∈ mapDelete d.1 m := by
      intro e he
      rw [mem_mapDelete]
      refine ⟨hpres e (List.mem_cons_of_mem d he), fun hk => ?_⟩
      exact hdk.1 (hk ▸ List.mem_map.mpr ⟨e, he, rfl⟩)
    have := ih (mapDelete d.1 m) (mapDelete_keys_nodup d.1 m hnd) hpres2 hdk.2
    simp only [List.length_cons]
    omega

theorem mapFind_mapDelete_ne {α : Type} (k k2 : List Nat) (m : List (List Nat × α))
    (hne : k2 ≠ k) : mapFind k2 (mapDelete k m) = mapFind k2 m := by
  induction m with
  | nil => rfl
  | cons kv rest ih =>
    rw [mapDelete]
    split
    · rename_i heq
      rw [mapFind, if_neg (by rw [heq]; exact fun h => hne h.symm), ih]
    · rw [mapFind, mapFind]
      split
      · rfl
      · exact ih

theorem evictSizeGo_sum {V : Type} (stf : Nat) (l : List (List Nat × CEntry V)) :
    ∀ (freed : Nat) (m : List (List Nat × CEntry V)),
      (m.map Prod.fst).Nodup →
      (∀ kv ∈ m, kv ∈ l) →
      (∀ kv ∈ l, mapFind kv.1 m = some kv.2) →
      ((l.map Prod.fst).Nodup) →
      (sumSizes (evictSizeGo stf l freed m) + stf ≤ sumSizes m + freed ∨
        sumSizes (evictSizeGo stf l freed m) = 0) := by
  induction l with
  | nil =>
    intro freed m hnd hcov hfind hlnd
    right
    have : m = [] := by
      cases m with
      | nil => rfl
      | cons kv rest => exact absurd (hcov kv (List.mem_cons_self kv rest)) (by simp)
    rw [evictSizeGo, this]
    rfl
  | cons kv rest ih =>
    intro freed m hnd hcov hfind hlnd
    rw [evictSizeGo]
    split
    · rename_i hge
      left
      omega
    · rename_i hlt
      rw [List.map_cons, List.nodup_cons] at hlnd
      have hkvm : (kv.1, kv.2) ∈ m :=
        mapFind_mem_of_eq_some m kv.1 kv.2 (hfind kv (List.mem_cons_self kv rest))
      have hsum := sumSizes_mapDelete kv.1 kv.2 m hnd hkvm
      have hnd2 := mapDelete_keys_nodup kv.1 m hnd
      have hcov2 : ∀ kv2 ∈ mapDelete kv.1 m, kv2 ∈ rest := by
        intro kv2 hkv2
        obtain ⟨h1, h2⟩ := (mem_mapDelete kv.1 m kv2).mp hkv2
        rcases List.mem_cons.mp (hcov kv2 h1) with rfl | h3
        · exact absurd rfl h2
        · exact h3
      have hfind2 : ∀ kv2 ∈ rest, mapFind kv2.1 (mapDelete kv.1 m) = some kv2.2 := by
        intro kv2 hkv2
        have hne : kv2.1 ≠ kv.1 := by
          intro heq
          exact hlnd.1 (heq ▸ List.mem_map.mpr ⟨kv2, hkv2, rfl⟩)
        rw [mapFind_mapDelete_ne kv.1 kv2.1 m hne]
        exact hfind kv2 (List.mem_cons_of_mem kv hkv2)
      rcases ih (freed + kv.2.size) (mapDelete kv.1 m) hnd2 hcov2 hfind2 hlnd.2 with h | h
      · left; omega
      · right; exact h

theorem mapDelete_length_le {α : Type} (k : List Nat) (m : List (List Nat × α)) :
    (mapDelete k m).length ≤ m.length := by
  induction m with
  | nil => simp [mapDelete]
  | cons kv rest ih =>
    rw [mapDelete]
    split
    · exact le_trans ih (by simp)
    · simpa using ih

theorem evictSizeGo_length {V : Type} (stf : Nat) (l : List (List Nat × CEntry V)) :
    ∀ (freed : Nat) (m : List (List Nat × CEntry V)),
      (evictSizeGo stf l freed m).length ≤ m.length := by
  induction l with
  | nil => intro freed m; rw [evictSizeGo]
  | cons kv rest ih =>
    intro freed m
    rw [evictSizeGo]
    split
    · exact le_rfl
    · exact le_trans (ih _ _) (mapDelete_length_le kv.1 m)


theorem mem_mapSet {α : Type} (k : List Nat) (v : α) (m : List (List Nat × α))
    (kv2 : List Nat × α) (h : kv2 ∈ mapSet k v m) : kv2 ∈ m ∨ kv2 = (k, v) := by
  induction m with
  | nil =>
    simp [mapSet] at h
    exact Or.inr h
  | cons a rest ih =>
    rw [mapSet] at h
    split at h
    · rcases List.mem_cons.mp h with rfl | h3
      · exact Or.inr rfl
      · exact Or.inl (List.mem_cons_of_mem a h3)
    · rcases List.mem_cons.mp h with rfl | h3
      · exact Or.inl (List.mem_cons_self _ _)
      · rcases ih h3 with h4 | h4
        · exact Or.inl (List.mem_cons_of_mem a h4)
        · exact Or.inr h4

theorem mapSet_keys_nodup {α : Type} (k : List Nat) (v : α) (m : List (List Nat × α))
    (h : (m.map Prod.fst).Nodup) : ((mapSet k v m).map Prod.fst).Nodup := by
  induction m with
  | nil => simp [mapSet]
  | cons kv rest ih =>
    rw [List.map_cons, List.nodup_cons] at h
    rw [mapSet]
    split
    · rename_i heq
      rw [List.map_cons, List.nodup_cons]
      exact ⟨heq ▸ h.1, h.2⟩
    · rename_i hne
      rw [List.map_cons, List.nodup_cons]
      refine ⟨fun hmem => ?_, ih h.2⟩
      obtain ⟨kv2, hkv2, hfst⟩ := List.mem_map.mp hmem
      rcases mem_mapSet k v rest kv2 hkv2 with hold | hknew
      · exact h.1 (List.mem_map.mpr ⟨kv2, hold, hfst⟩)
      · exact hne (by rw [← hfst, hknew])


theorem evictMemoryEntries_length {V : Type} (count : Nat)
    (mem : List (List Nat × CEntry V)) (hnd : (mem.map Prod.fst).Nodup)
    (hcount : count ≤ mem.length) :
    (evictMemoryEntries count mem).length + count = mem.length := by
  rw [evictMemoryEntries]
  have hperm := sortStable_perm entryLE mem
  have hsortnd : ((sortStable entryLE mem).map Prod.fst).Nodup :=
    ((hperm.map Prod.fst).nodup_iff).mpr hnd
  have hlen : (sortStable entryLE mem).length = mem.length := hperm.length_eq
  have htake : (((sortStable entryLE mem).take count).map Prod.fst).Nodup := by
    rw [List.map_take]
    exact List.Nodup.sublist (List.take_sublist count _) hsortnd
  have hpres : ∀ d ∈ (sortStable entryLE mem).take count, d ∈ mem := by
    intro d hd
    exact hperm.mem_iff.mp (List.mem_of_mem_take hd)
  have := foldl_delete_length ((sortStable entryLE mem).take count) mem hnd hpres htake
  rw [List.length_take] at this
  omega

theorem enforceMemoryLimits_length {V : Type} (cfg : CacheConfig)
    (mem : List (List Nat × CEntry V)) (hnd : (mem.map Prod.fst).Nodup) :
    (enforceMemoryLimits cfg mem).length ≤ max cfg.maxMemoryEntries mem.length := by
  rw [enforceMemoryLimits]
  split
  · rename_i hover
    have h1 := evictMemoryEntries_length (mem.length - cfg.maxMemoryEntries) mem hnd (by omega)
    split
    · exact le_trans (le_trans (evictSizeGo_length _ _ _ _) (by omega)) (le_max_left _ _)
    · omega
  · rename_i hunder
    split
    · exact le_trans (le_trans (evictSizeGo_length _ _ _ _) le_rfl) (le_max_right _ _)
    · exact le_max_right _ _

theorem setPersistentCache_memory {V : Type} (now : Nat) (key : List Nat) (e : CEntry V)
    (f1 f2 f3 : Bool) (st : CacheState V) :
    (setPersistentCache now key e f1 f2 f3 st).memory = st.memory := by
  rw [setPersistentCache]
  split
  · split
    · rfl
    · split <;> rfl
  · split <;> rfl


theorem enforceMemoryLimits_le {V : Type} (cfg : CacheConfig)
    (mem : List (List Nat × CEntry V)) (hnd : (mem.map Prod.fst).Nodup) :
    (enforceMemoryLimits cfg mem).length ≤ cfg.maxMemoryEntries := by
  rw [enforceMemoryLimits]
  split
  · rename_i hover
    have h1 := evictMemoryEntries_length (mem.length - cfg.maxMemoryEntries) mem hnd (by omega)
    split
    · exact le_trans (evictSizeGo_length _ _ _ _) (by omega)
    · omega
  · rename_i hunder
    split
    · exact le_trans (evictSizeGo_length _ _ _ _) (by omega)
    · omega

/-- Claim C7: after every `set` the memory tier holds at most the
configured maximum number of entries; when the count exceeds the cap the
evicted entries are exactly the first `count` of the stable
`(priority ascending, lastAccess ascending)` order — every evicted entry
precedes every survivor in that order — leaving exactly the cap; and
size-triggered eviction frees space down to 80% of the byte cap rather than
just below it. -/
theorem cache_eviction_spec :
    (∀ (V : Type) (stringify : V → List Nat) (cfg : CacheConfig) (now : Nat)
       (key : List Nat) (v : V) (opts : CacheOptions) (f1 f2 f3 : Bool)
       (st : CacheState V), (st.memory.map Prod.fst).Nodup →
       (cacheSet stringify cfg now key v opts f1 f2 f3 st).memory.length ≤
         cfg.maxMemoryEntries) ∧
    (∀ (V : Type) (cfg : CacheConfig) (mem : List (List Nat × CEntry V)),
       (mem.map Prod.fst).Nodup → cfg.maxMemoryEntries < mem.length →
       (∀ kv, kv ∈ evictMemoryEntries (mem.length - cfg.maxMemoryEntries) mem ↔
          kv ∈ mem ∧
          kv.1 ∉ ((sortStable entryLE mem).take (mem.length - cfg.maxMemoryEntries)).map Prod.fst) ∧
       (∀ a ∈ (sortStable entryLE mem).take (mem.length - cfg.maxMemoryEntries),
          ∀ b ∈ evictMemoryEntries (mem.length - cfg.maxMemoryEntries) mem,
          entryLE a b = true) ∧
       (evictMemoryEntries (mem.length - cfg.maxMemoryEntries) mem).length =
         cfg.maxMemoryEntries) ∧
    (∀ (V : Type) (cfg : CacheConfig) (mem : List (List Nat × CEntry V)),
       (mem.map Prod.fst).Nodup → cfg.maxMemorySize < sumSizes mem →
       sumSizes (evictMemoryEntriesSize (sumSizes mem - cfg.maxMemorySize * 4 / 5) mem) ≤
         cfg.maxMemorySize * 4 / 5) := by
  refine ⟨?_, ?_, ?_⟩
  · intro V stringify cfg now key v opts f1 f2 f3 st hnd
    simp only [cacheSet]
    split
    · rw [setPersistentCache_memory]
      rw [setMemoryCache]
      exact enforceMemoryLimits_le cfg _ (mapSet_keys_nodup key _ st.memory hnd)
    · rw [setMemoryCache]
      exact enforceMemoryLimits_le cfg _ (mapSet_keys_nodup key _ st.memory hnd)
  · intro V cfg mem hnd hover
    have hperm := sortStable_perm entryLE mem
    refine ⟨fun kv => foldl_delete_mem _ mem kv, ?_, ?_⟩
    · intro a ha b hb
      obtain ⟨hbm, hbk⟩ := (foldl_delete_mem _ mem b).mp hb
      have hbs : b ∈ sortStable entryLE mem := hperm.mem_iff.mpr hbm
      have hsorted := sortStable_sorted mem
      rw [← List.take_append_drop (mem.length - cfg.maxMemoryEntries) (sortStable entryLE mem)]
        at hsorted
      have hpw := (List.pairwise_append.mp hsorted).2.2
      have hbsplit : b ∈ (sortStable entryLE mem).take (mem.length - cfg.maxMemoryEntries) ++
          (sortStable entryLE mem).drop (mem.length - cfg.maxMemoryEntries) := by
        rw [List.take_append_drop]
        exact hbs
      rcases List.mem_append.mp hbsplit with hbt | hbd
      · exact absurd (List.mem_map.mpr ⟨b, hbt, rfl⟩) hbk
      · exact hpw a ha b hbd
    · have := evictMemoryEntries_length (mem.length - cfg.maxMemoryEntries) mem hnd (by omega)
      omega
  · intro V cfg mem hnd hbig
    rw [evictMemoryEntriesSize]
    have hperm := sortStable_perm entryLE mem
    have hsortnd : ((sortStable entryLE mem).map Prod.fst).Nodup :=
      ((hperm.map Prod.fst).nodup_iff).mpr hnd
    have hcov : ∀ kv ∈ mem, kv ∈ sortStable entryLE mem := fun kv h => hperm.mem_iff.mpr h
    have hfind : ∀ kv ∈ sortStable entryLE mem, mapFind kv.1 mem = some kv.2 := by
      intro kv hkv
      exact mapFind_eq_some_of_mem mem hnd kv.1 kv.2 (hperm.mem_iff.mp hkv)
    rcases evictSizeGo_sum (sumSizes mem - cfg.maxMemorySize * 4 / 5)
      (sortStable entryLE mem) 0 mem hnd hcov hfind hsortnd with h | h
    · omega
    · omega


theorem enforceMemoryLimits_eq_self {V : Type} (cfg : CacheConfig)
    (mem : List (List Nat × CEntry V)) (h1 : mem.length ≤ cfg.maxMemoryEntries)
    (h2 : sumSizes mem ≤ cfg.maxMemorySize) : enforceMemoryLimits cfg mem = mem := by
  simp only [enforceMemoryLimits]
  have e1 : (if cfg.maxMemoryEntries < mem.length then
      evictMemoryEntries (mem.length - cfg.maxMemoryEntries) mem else mem) = mem :=
    if_neg (by omega)
  rw [e1, if_neg (by omega)]

theorem cacheGetLocal_state {V : Type} (parse : List Nat → Option V) (cfg : CacheConfig)
    (now : Nat) (key : List Nat) (st : CacheState V) :
    (cacheGetLocal parse cfg now key st).2.idb = st.idb ∧
    (cacheGetLocal parse cfg now key st).2.session = st.session ∧
    (cacheGetLocal parse cfg now key st).2.localS = st.localS := by
  rw [cacheGetLocal]
  split
  · split
    · exact ⟨rfl, rfl, rfl⟩
    · exact ⟨rfl, rfl, rfl⟩
  · exact ⟨rfl, rfl, rfl⟩

theorem cacheGetSession_state {V : Type} (parse : List Nat → Option V) (cfg : CacheConfig)
    (now : Nat) (key : List Nat) (st : CacheState V) :
    (cacheGetSession parse cfg now key st).2.idb = st.idb ∧
    (cacheGetSession parse cfg now key st).2.session = st.session ∧
    (cacheGetSession parse cfg now key st).2.localS = st.localS := by
  rw [cacheGetSession]
  split
  · split
    · exact ⟨rfl, rfl, rfl⟩
    · exact cacheGetLocal_state parse cfg now key st
  · exact cacheGetLocal_state parse cfg now key st

theorem cacheGetDurable_state {V : Type} (parse : List Nat → Option V) (cfg : CacheConfig)
    (now : Nat) (key : List Nat) (st : CacheState V) :
    (cacheGetDurable parse cfg now key st).2.idb = st.idb ∧
    (cacheGetDurable parse cfg now key st).2.session = st.session ∧
    (cacheGetDurable parse cfg now key st).2.localS = st.localS := by
  rw [cacheGetDurable]
  split
  · exact ⟨rfl, rfl, rfl⟩
  · exact cacheGetSession_state parse cfg now key st
  · split
    · exact ⟨rfl, rfl, rfl⟩
    · exact cacheGetSession_state parse cfg now key st

theorem cacheGet_durable_state {V : Type} (parse : List Nat → Option V) (cfg : CacheConfig)
    (now : Nat) (key : List Nat) (st : CacheState V) :
    (cacheGet parse cfg now key st).2.idb = st.idb ∧
    (cacheGet parse cfg now key st).2.session = st.session ∧
    (cacheGet parse cfg now key st).2.localS = st.localS := by
  rw [cacheGet]
  split
  · split
    · exact ⟨rfl, rfl, rfl⟩
    · exact cacheGetDurable_state parse cfg now key _
  · exact cacheGetDurable_state parse cfg now key _



theorem mapFind_mapDelete_self {α : Type} (k : List Nat) (m : List (List Nat × α)) :
    mapFind k (mapDelete k m) = none := by
  rw [mapFind_none_iff]
  intro hmem
  obtain ⟨kv, hkv, hfst⟩ := List.mem_map.mp hmem
  exact ((mem_mapDelete k m kv).mp hkv).2 hfst

theorem getFromLocal_some {V : Type} (key : List Nat) (st : CacheState V) (e : CEntry V)
    (h : getFromLocalStorage key st = some e) : mapFind key st.localS = some (some e) := by
  rw [getFromLocalStorage] at h
  split at h
  · exact absurd h (by simp)
  · exact absurd h (by simp)
  · rename_i e2 heq
    injection h with h
    rw [← h]
    exact heq

theorem getFromSession_some {V : Type} (key : List Nat) (st : CacheState V) (e : CEntry V)
    (h : getFromSessionStorage key st = some e) : mapFind key st.session = some (some e) := by
  rw [getFromSessionStorage] at h
  split at h
  · exact absurd h (by simp)
  · exact absurd h (by simp)
  · rename_i e2 heq
    injection h with h
    rw [← h]
    exact heq

theorem getFromIdb_some {V : Type} (key : List Nat) (st : CacheState V) (e : CEntry V)
    (h : getFromIndexedDB key st = .ok (some e)) :
    ∃ store, st.idb = some store ∧ mapFind key store = some (.ok e) := by
  rw [getFromIndexedDB] at h
  split at h
  · exact absurd h (by simp)
  · rename_i store heq
    split at h
    · exact absurd h (by simp)
    · rename_i e2 heq2
      injection h with h
      injection h with h
      rw [← h]
      exact ⟨store, heq, heq2⟩
    · exact absurd h (by simp)

theorem cacheGetLocal_expired {V : Type} (parse : List Nat → Option V) (cfg : CacheConfig)
    (now : Nat) (key : List Nat) (st : CacheState V)
    (hloc : ∀ e : CEntry V, mapFind key st.localS = some (some e) → e.expires ≤ now) :
    cacheGetLocal parse cfg now key st = (none, st) := by
  rw [cacheGetLocal]
  split
  · rename_i e he
    rw [if_neg (by have := hloc e (getFromLocal_some key st e he); omega)]
  · rfl

theorem cacheGetSession_expired {V : Type} (parse : List Nat → Option V) (cfg : CacheConfig)
    (now : Nat) (key : List Nat) (st : CacheState V)
    (hsess : ∀ e : CEntry V, mapFind key st.session = some (some e) → e.expires ≤ now)
    (hloc : ∀ e : CEntry V, mapFind key st.localS = some (some e) → e.expires ≤ now) :
    cacheGetSession parse cfg now key st = (none, st) := by
  rw [cacheGetSession]
  split
  · rename_i e he
    rw [if_neg (by have := hsess e (getFromSession_some key st e he); omega)]
    exact cacheGetLocal_expired parse cfg now key st hloc
  · exact cacheGetLocal_expired parse cfg now key st hloc

theorem cacheGetDurable_expired {V : Type} (parse : List Nat → Option V) (cfg : CacheConfig)
    (now : Nat) (key : List Nat) (st : CacheState V)
    (hidb : ∀ (store : List (List Nat × Except Unit (CEntry V))) (e : CEntry V),
      st.idb = some store → mapFind key store = some (.ok e) → e.expires ≤ now)
    (hsess : ∀ e : CEntry V, mapFind key st.session = some (some e) → e.expires ≤ now)
    (hloc : ∀ e : CEntry V, mapFind key st.localS = some (some e) → e.expires ≤ now) :
    cacheGetDurable parse cfg now key st = (none, st) := by
  rw [cacheGetDurable]
  split
  · rfl
  · exact cacheGetSession_expired parse cfg now key st hsess hloc
  · rename_i e he
    obtain ⟨store, h1, h2⟩ := getFromIdb_some key st e he
    rw [if_neg (by have := hidb store e h1 h2; omega)]
    exact cacheGetSession_expired parse cfg now key st hsess hloc


theorem mkCacheEntry_expires {V : Type} (stringify : V → List Nat) (cfg : CacheConfig)
    (now : Nat) (key : List Nat) (v : V) (opts : CacheOptions) :
    (mkCacheEntry stringify cfg now key v opts).expires = now + opts.ttl.getD cfg.defaultTTL := rfl

theorem mkCacheEntry_size {V : Type} (stringify : V → List Nat) (cfg : CacheConfig)
    (now : Nat) (key : List Nat) (v : V) (opts : CacheOptions) :
    (mkCacheEntry stringify cfg now key v opts).size = (stringify v).length := rfl

theorem cacheSet_memory {V : Type} (stringify : V → List Nat) (cfg : CacheConfig)
    (now : Nat) (key : List Nat) (v : V) (opts : CacheOptions) (f1 f2 f3 : Bool)
    (st : CacheState V)
    (hlen : ∀ e : CEntry V, (mapSet key e st.memory).length ≤ cfg.maxMemoryEntries)
    (hsize : ∀ e : CEntry V, e.size = (stringify v).length →
      sumSizes (mapSet key e st.memory) ≤ cfg.maxMemorySize) :
    (cacheSet stringify cfg now key v opts f1 f2 f3 st).memory =
      mapSet key (mkCacheEntry stringify cfg now key v opts) st.memory := by
  simp only [cacheSet]
  split
  · rw [setPersistentCache_memory, setMemoryCache,
      enforceMemoryLimits_eq_self _ _ (hlen _) (hsize _ (mkCacheEntry_size ..))]
  · rw [setMemoryCache,
      enforceMemoryLimits_eq_self _ _ (hlen _) (hsize _ (mkCacheEntry_size ..))]

theorem c5_partA {V : Type} (parse : List Nat → Option V) (stringify : V → List Nat)
    (cfg : CacheConfig) (now : Nat) (key : List Nat) (v : V) (opts : CacheOptions)
    (f1 f2 f3 : Bool) (st : CacheState V)
    (hrt : parse (stringify v) = some v)
    (httl : 0 < opts.ttl.getD cfg.defaultTTL)
    (hlen : ∀ e : CEntry V, (mapSet key e st.memory).length ≤ cfg.maxMemoryEntries)
    (hsize : ∀ e : CEntry V, e.size = (stringify v).length →
      sumSizes (mapSet key e st.memory) ≤ cfg.maxMemorySize) :
    (cacheGet parse cfg now key (cacheSet stringify cfg now key v opts f1 f2 f3 st)).1 =
      some v := by
  have hmem := cacheSet_memory stringify cfg now key v opts f1 f2 f3 st hlen hsize
  rw [cacheGet]
  simp only [hmem, mapFind_mapSet_self]
  rw [if_pos (by rw [mkCacheEntry_expires]; omega)]
  show decompressData parse (mkCacheEntry stringify cfg now key v opts).data = some v
  rw [mkCacheEntry]
  simp only
  split
  · rw [decompressData, hrt]
  · rw [decompressData]


theorem c5_partB {V : Type} (parse : List Nat → Option V) (cfg : CacheConfig)
    (now : Nat) (key : List Nat) (st : CacheState V)
    (hmem : ∀ e : CEntry V, mapFind key st.memory = some e → e.expires ≤ now)
    (hidb : ∀ (store : List (List Nat × Except Unit (CEntry V))) (e : CEntry V),
      st.idb = some store → mapFind key store = some (.ok e) → e.expires ≤ now)
    (hsess : ∀ e : CEntry V, mapFind key st.session = some (some e) → e.expires ≤ now)
    (hloc : ∀ e : CEntry V, mapFind key st.localS = some (some e) → e.expires ≤ now) :
    (cacheGet parse cfg now key st).1 = none ∧
    mapFind key (cacheGet parse cfg now key st).2.memory = none := by
  rw [cacheGet]
  split
  · rename_i e heq
    have hexp := hmem e heq
    rw [if_neg (by omega)]
    rw [cacheGetDurable_expired parse cfg now key]
    · exact ⟨rfl, mapFind_mapDelete_self key st.memory⟩
    · exact fun store e h1 h2 => hidb store e h1 h2
    · exact fun e h => hsess e h
    · exact fun e h => hloc e h
  · rename_i heq
    rw [cacheGetDurable_expired parse cfg now key]
    · exact ⟨rfl, heq⟩
    · exact fun store e h1 h2 => hidb store e h1 h2
    · exact fun e h => hsess e h
    · exact fun e h => hloc e h


theorem c5_partC {V : Type} (parse : List Nat → Option V) (cfg : CacheConfig)
    (now : Nat) (key : List Nat) (st : CacheState V) (e : CEntry V)
    (hfind : mapFind key st.memory = some e) (hfresh : now < e.expires) :
    (cacheGet parse cfg now key st).1 = decompressData parse e.data := by
  rw [cacheGet]
  split
  · rename_i e2 heq
    simp only at heq
    rw [hfind] at heq
    injection heq with heq
    subst heq
    rw [if_pos hfresh]
  · rename_i heq
    simp only at heq
    rw [hfind] at heq
    exact absurd heq (by simp)


theorem cacheGetDurable_idbnone {V : Type} (parse : List Nat → Option V) (cfg : CacheConfig)
    (now : Nat) (key : List Nat) (st : CacheState V)
    (hidb : getFromIndexedDB key st = .ok none) :
    cacheGetDurable parse cfg now key st = cacheGetSession parse cfg now key st := by
  rw [cacheGetDurable, hidb]

theorem cacheGetSession_hit {V : Type} (parse : List Nat → Option V) (cfg : CacheConfig)
    (now : Nat) (key : List Nat) (st : CacheState V) (e : CEntry V)
    (hsess : mapFind key st.session = some (some e)) (hfresh : now < e.expires)
    (hlen : (mapSet key e st.memory).length ≤ cfg.maxMemoryEntries)
    (hsize : sumSizes (mapSet key e st.memory) ≤ cfg.maxMemorySize) :
    (cacheGetSession parse cfg now key st).1 = decompressData parse e.data ∧
    mapFind key (cacheGetSession parse cfg now key st).2.memory = some e := by
  rw [cacheGetSession, getFromSessionStorage, hsess]
  simp only
  rw [if_pos hfresh]
  refine ⟨rfl, ?_⟩
  show mapFind key (setMemoryCache cfg key e st.memory) = some e
  rw [setMemoryCache, enforceMemoryLimits_eq_self _ _ hlen hsize]
  exact mapFind_mapSet_self key e st.memory

/-- Claim C6 (amended): a read that hits a durable tier re-writes the entry
into the memory tier (tier 0) only — after one `get` the value is retrievable
from the memory tier, while IndexedDB, sessionStorage and localStorage are
left exactly as they were, so faster intermediate tiers are not populated. -/
theorem cache_promotion_memory_only {V : Type} (parse : List Nat → Option V) (cfg : CacheConfig)
    (now : Nat) (key : List Nat) (st : CacheState V) (e : CEntry V)
    (hmm : mapFind key st.memory = none)
    (hidb : getFromIndexedDB key st = .ok none)
    (hsess : mapFind key st.session = some (some e))
    (hfresh : now < e.expires)
    (hlen : (mapSet key e st.memory).length ≤ cfg.maxMemoryEntries)
    (hsize : sumSizes (mapSet key e st.memory) ≤ cfg.maxMemorySize) :
    (cacheGet parse cfg now key st).1 = decompressData parse e.data ∧
    mapFind key (cacheGet parse cfg now key st).2.memory = some e ∧
    (cacheGet parse cfg now key st).2.idb = st.idb ∧
    (cacheGet parse cfg now key st).2.session = st.session ∧
    (cacheGet parse cfg now key st).2.localS = st.localS := by
  obtain ⟨hu1, hu2, hu3⟩ := cacheGet_durable_state parse cfg now key st
  refine ⟨?_, ?_, hu1, hu2, hu3⟩ <;>
  · rw [cacheGet]
    split
    · rename_i e2 heq
      simp only at heq
      rw [hmm] at heq
      exact absurd heq (by simp)
    · rw [cacheGetDurable_idbnone parse cfg now key]
      · first
        | exact (cacheGetSession_hit parse cfg now key
            { st with stats := { st.stats with
                totalRequests := st.stats.totalRequests + 1 } } e hsess hfresh hlen hsize).1
        | exact (cacheGetSession_hit parse cfg now key
            { st with stats := { st.stats with
                totalRequests := st.stats.totalRequests + 1 } } e hsess hfresh hlen hsize).2
      · exact hidb


theorem getFromIdb_err {V : Type} (key : List Nat) (st : CacheState V)
    (store : List (List Nat × Except Unit (CEntry V)))
    (h1 : st.idb = some store) (h2 : mapFind key store = some (.error ())) :
    getFromIndexedDB key st = .error () := by
  simp [getFromIndexedDB, h1, h2]

theorem cacheGetDurable_err {V : Type} (parse : List Nat → Option V) (cfg : CacheConfig)
    (now : Nat) (key : List Nat) (st : CacheState V)
    (h : getFromIndexedDB key st = .error ()) :
    cacheGetDurable parse cfg now key st = (none, st) := by
  rw [cacheGetDurable, h]

theorem cacheGetSession_corrupt {V : Type} (parse : List Nat → Option V) (cfg : CacheConfig)
    (now : Nat) (key : List Nat) (st : CacheState V)
    (h : mapFind key st.session = some none) :
    cacheGetSession parse cfg now key st = cacheGetLocal parse cfg now key st := by
  rw [cacheGetSession, getFromSessionStorage, h]

theorem cacheGetLocal_hit {V : Type} (parse : List Nat → Option V) (cfg : CacheConfig)
    (now : Nat) (key : List Nat) (st : CacheState V) (e : CEntry V)
    (hloc : mapFind key st.localS = some (some e)) (hfresh : now < e.expires) :
    (cacheGetLocal parse cfg now key st).1 = decompressData parse e.data := by
  rw [cacheGetLocal, getFromLocalStorage, hloc]
  simp only
  rw [if_pos hfresh]

/-- Claim C9: the layered cache's `get` and `set` never throw to the
caller: an erroring IndexedDB read is caught and `get` returns `null`; a
corrupted sessionStorage cell is skipped and a fresh localStorage entry is
still returned; and `set` completes with the memory tier written whatever
durable-tier write failures are injected. -/
theorem cache_no_throw_spec :
    (∀ (V : Type) (parse : List Nat → Option V) (cfg : CacheConfig) (now : Nat)
       (key : List Nat) (st : CacheState V)
       (store : List (List Nat × Except Unit (CEntry V))),
       mapFind key st.memory = none → st.idb = some store →
       mapFind key store = some (.error ()) →
       (cacheGet parse cfg now key st).1 = none) ∧
    (∀ (V : Type) (parse : List Nat → Option V) (cfg : CacheConfig) (now : Nat)
       (key : List Nat) (st : CacheState V) (e : CEntry V),
       mapFind key st.memory = none → getFromIndexedDB key st = .ok none →
       mapFind key st.session = some none →
       mapFind key st.localS = some (some e) → now < e.expires →
       (cacheGet parse cfg now key st).1 = decompressData parse e.data) ∧
    (∀ (V : Type) (stringify : V → List Nat) (cfg : CacheConfig) (now : Nat)
       (key : List Nat) (v : V) (opts : CacheOptions) (wfIdb wfSess wfLoc : Bool)
       (st : CacheState V),
       (∀ e : CEntry V, (mapSet key e st.memory).length ≤ cfg.maxMemoryEntries) →
       (∀ e : CEntry V, e.size = (stringify v).length →
         sumSizes (mapSet key e st.memory) ≤ cfg.maxMemorySize) →
       mapFind key (cacheSet stringify cfg now key v opts wfIdb wfSess wfLoc st).memory =
         some (mkCacheEntry stringify cfg now key v opts)) := by
  refine ⟨?_, ?_, ?_⟩
  · intro V parse cfg now key st store hmm hidb hcell
    rw [cacheGet]
    split
    · rename_i e2 heq
      simp only at heq
      rw [hmm] at heq
      exact absurd heq (by simp)
    · rw [cacheGetDurable_err parse cfg now key]
      exact getFromIdb_err key
        { st with stats := { st.stats with
            totalRequests := st.stats.totalRequests + 1 } } store hidb hcell
  · intro V parse cfg now key st e hmm hidb hcorrupt hloc hfresh
    rw [cacheGet]
    split
    · rename_i e2 heq
      simp only at heq
      rw [hmm] at heq
      exact absurd heq (by simp)
    · rw [cacheGetDurable_idbnone parse cfg now key]
      · rw [cacheGetSession_corrupt parse cfg now key]
        · exact cacheGetLocal_hit parse cfg now key
            { st with stats := { st.stats with
                totalRequests := st.stats.totalRequests + 1 } } e hloc hfresh
        · exact hcorrupt
      · exact hidb
  · intro V stringify cfg now key v opts wfIdb wfSess wfLoc st hlen hsize
    rw [cacheSet_memory stringify cfg now key v opts wfIdb wfSess wfLoc st hlen hsize]
    exact mapFind_mapSet_self key _ st.memory


/-- Claim C5 (amended): `set(k, v, ttl)` followed by `get(k)` returns `v`
when the write fits the memory caps; when every tier's entry for the key is
expired, `get` returns `null` and removes the entry from the memory tier
only; `get` never writes or deletes in the durable tiers (last conjunct), so
an entry found expired there is skipped, not deleted, yet an expired entry is
never returned; and a fresh memory entry is returned without probing
further, giving the latency probing order. -/
theorem cache_ttl_expiry_spec :
    (∀ (V : Type) (parse : List Nat → Option V) (stringify : V → List Nat)
       (cfg : CacheConfig) (now : Nat) (key : List Nat) (v : V) (opts : CacheOptions)
       (f1 f2 f3 : Bool) (st : CacheState V),
       parse (stringify v) = some v →
       0 < opts.ttl.getD cfg.defaultTTL →
       (∀ e : CEntry V, (mapSet key e st.memory).length ≤ cfg.maxMemoryEntries) →
       (∀ e : CEntry V, e.size = (stringify v).length →
         sumSizes (mapSet key e st.memory) ≤ cfg.maxMemorySize) →
       (cacheGet parse cfg now key (cacheSet stringify cfg now key v opts f1 f2 f3 st)).1 =
         some v) ∧
    (∀ (V : Type) (parse : List Nat → Option V) (cfg : CacheConfig) (now : Nat)
       (key : List Nat) (st : CacheState V),
       (∀ e : CEntry V, mapFind key st.memory = some e → e.expires ≤ now) →
       (∀ (store : List (List Nat × Except Unit (CEntry V))) (e : CEntry V),
         st.idb = some store → mapFind key store = some (.ok e) → e.expires ≤ now) →
       (∀ e : CEntry V, mapFind key st.session = some (some e) → e.expires ≤ now) →
       (∀ e : CEntry V, mapFind key st.localS = some (some e) → e.expires ≤ now) →
       (cacheGet parse cfg now key st).1 = none ∧
       mapFind key (cacheGet parse cfg now key st).2.memory = none) ∧
    (∀ (V : Type) (parse : List Nat → Option V) (cfg : CacheConfig) (now : Nat)
       (key : List Nat) (st : CacheState V) (e : CEntry V),
       mapFind key st.memory = some e → now < e.expires →
       (cacheGet parse cfg now key st).1 = decompressData parse e.data) ∧
    (∀ (V : Type) (parse : List Nat → Option V) (cfg : CacheConfig) (now : Nat)
       (key : List Nat) (st : CacheState V),
       (cacheGet parse cfg now key st).2.idb = st.idb ∧
       (cacheGet parse cfg now key st).2.session = st.session ∧
       (cacheGet parse cfg now key st).2.localS = st.localS) :=
  ⟨fun _V parse stringify cfg now key v opts f1 f2 f3 st hrt httl hlen hsize =>
      c5_partA parse stringify cfg now key v opts f1 f2 f3 st hrt httl hlen hsize,
   fun _V parse cfg now key st hmem hidb hsess hloc =>
      c5_partB parse cfg now key st hmem hidb hsess hloc,
   fun _V parse cfg now key st e hfind hfresh =>
      c5_partC parse cfg now key st e hfind hfresh,
   fun _V parse cfg now key st => cacheGet_durable_state parse cfg now key st⟩

/-- Claim C5 counterexample: an entry found expired in the sessionStorage
tier is not deleted from that tier — after the missing `get` the session
tier still holds it, contrary to the claimed delete-on-probe. -/
theorem cache_expired_durable_kept_cex :
    (cacheGet Option.some defaultConfig 100 (ascii "k") cexStateExpired).1 = none ∧
    mapFind (ascii "k")
        (cacheGet Option.some defaultConfig 100 (ascii "k") cexStateExpired).2.session =
      some (some cexEntryExpired) := by
  exact ⟨rfl, rfl⟩

/-- Witness: a concrete set-then-get round trip through the memory tier. -/
theorem cache_ttl_expiry_spec_witness :
    (cacheGet Option.some defaultConfig 7 (ascii "k")
      (cacheSet (fun v => v) defaultConfig 7 (ascii "k") (ascii "v") {} false false false
        cexStateExpired)).1 = some (ascii "v") :=
  cache_ttl_expiry_spec.1 (List Nat) Option.some (fun v => v) defaultConfig 7 (ascii "k") (ascii "v") {}
    false false false cexStateExpired rfl (by decide)
    (fun e => by simp [cexStateExpired, mapSet, defaultConfig])
    (fun e he => by simp [cexStateExpired, mapSet, sumSizes, he, defaultConfig, ascii])

/-- Claim C6 counterexample: with an open, empty IndexedDB store and the
entry only in sessionStorage, a hit promotes the entry into memory but
writes nothing into the faster IndexedDB tier, contrary to the claimed
re-write into every faster tier `0..k-1`. -/
theorem cache_promotion_skips_idb_cex :
    (cacheGet Option.some defaultConfig 100 (ascii "k") cexStatePromo).1 = some (ascii "v") ∧
    mapFind (ascii "k")
        (cacheGet Option.some defaultConfig 100 (ascii "k") cexStatePromo).2.memory =
      some cexEntryFresh ∧
    (cacheGet Option.some defaultConfig 100 (ascii "k") cexStatePromo).2.idb = some [] := by
  exact ⟨rfl, rfl, rfl⟩

/-- Witness: the C6 theorem applied to the concrete promotion state. -/
theorem cache_promotion_memory_only_witness :
    (cacheGet Option.some defaultConfig 100 (ascii "k") cexStatePromo).1 =
      decompressData Option.some cexEntryFresh.data :=
  (cache_promotion_memory_only Option.some defaultConfig 100 (ascii "k") cexStatePromo cexEntryFresh
    rfl rfl rfl (by decide) (by decide) (by decide)).1

/-- Witness: a concrete `set` keeps the memory tier within the default
entry cap. -/
theorem cache_eviction_spec_witness :
    (cacheSet (fun v => v) defaultConfig 0 (ascii "k") (ascii "v") {} false false false
      cexStateExpired).memory.length ≤ defaultConfig.maxMemoryEntries :=
  cache_eviction_spec.1 (List Nat) (fun v => v) defaultConfig 0 (ascii "k") (ascii "v") {} false false false
    cexStateExpired (by decide)

/-- Witness: `get` returns `null` on a state whose IndexedDB read for the
key errors. -/
theorem cache_no_throw_spec_witness :
    (cacheGet Option.some defaultConfig 3 (ascii "k")
      { memory := [], idb := some [(ascii "k", .error ())], session := [], localS := [],
        stats := {} }).1 = (none : Option (List Nat)) :=
  cache_no_throw_spec.1 (List Nat) Option.some defaultConfig 3 (ascii "k")
    { memory := [], idb := some [(ascii "k", .error ())], session := [], localS := [],
      stats := {} } [(ascii "k", .error ())] rfl rfl rfl


end KodikFix
